import Mathlib

/-!
# Lognormal EQMOM kernel: embedding and verified properties

Shallow embedding of `lognormalEQMOM.C` (the lognormal kernel density function of
the extended quadrature method of moments) and of the inversion interface
declared in `extendedMomentInversion.H` / `mStarRealizability.H`.

Conventions of the embedding

* `scalar` is a type parameter `α` (OpenFOAM selects it when it is built); the
  functions of the C maths library the source calls (`exp`, `log`, `sqrt`,
  `pow`, the constant `pi`) are the fields of a `ScalarMath α` record.  The
  definitions are ordinary computable functions of that record; the theorems
  are about their interpretation over the real numbers, `realMath`.
* `label` is the 32-bit signed integer of the default build (`WM_LABEL_SIZE=32`):
  a product of labels is `labelMul`, the integer product reduced to 32 bits in
  two's complement.  List positions are `Nat`.
* Lists passed by reference are passed and returned explicitly.  A read or a
  write outside a list is undefined behaviour in the source; here it makes the
  function return `none`.
* `univariateMomentSet` is a list of scalars.  Its member
  `nRealizableMoments()` is not part of these sources, so every function that
  calls it takes it as the parameter `nRealizableMoments`.
-/

namespace Foam

/-- The functions of the maths library used by the kernel, over a scalar type. -/
structure ScalarMath (α : Type) where
  exp : α → α
  log : α → α
  sqrt : α → α
  pow : α → α → α
  pi : α

/-- Interpretation of the maths library over the real numbers.  `pow` is the
real power function, as `pow(double, double)` is; `log` and `sqrt` are Mathlib's
total functions. -/
noncomputable def realMath : ScalarMath ℝ where
  exp := Real.exp
  log := Real.log
  sqrt := Real.sqrt
  pow := fun x y => x ^ y
  pi := Real.pi

/-- OpenFOAM's `sqr`. -/
def sqr {α : Type} [Mul α] (x : α) : α := x * x

/-- Checked store `l[i] = v`. -/
def writeAt {α : Type} (l : List α) (i : Nat) (v : α) : Option (List α) :=
  if i < l.length then some (l.set i v) else none

/-- The loop `for (label i = lo; i < lo + count; i++) body`, threading the
state the body updates. -/
def forLoop {σ : Type} (body : Nat → σ → Option σ) : Nat → Nat → σ → Option σ
  | 0, _, s => some s
  | count + 1, i, s => (body i s).bind (forLoop body count (i + 1))

/-- Width of `label` in the default build. -/
def labelBits : ℕ := 32

/-- Reduction of an integer to the range of `label`, in two's complement. -/
def labelWrap (x : ℤ) : ℤ :=
  (x + 2 ^ (labelBits - 1)) % 2 ^ labelBits - 2 ^ (labelBits - 1)

/-- The product `a*b` of two labels. -/
def labelMul (a b : ℤ) : ℤ := labelWrap (a * b)

namespace lognormalEQMOM

/-- The member `lognormalEQMOM::secondaryAbscissa`. -/
def secondaryAbscissa {α : Type} [Mul α]
    (primaryAbscissa secondaryAbscissa _sigma : α) : α :=
  primaryAbscissa * secondaryAbscissa

/-- The member `lognormalEQMOM::momentsStarToMoments`: the loop runs over the positions of
`moments`, which is returned updated.  The exponent `momenti*momenti` is a
label product, converted to a scalar by `pow`. -/
def momentsStarToMoments {α : Type} [Field α] (M : ScalarMath α)
    (sigma : α) (moments momentsStar : List α) : Option (List α) :=
  let z := M.exp (sqr sigma / 2)
  forLoop (fun momenti ms => do
      let v ← momentsStar[momenti]?
      writeAt ms momenti (v * M.pow z ((labelMul momenti momenti : ℤ) : α)))
    moments.length 0 moments

/-- The member `lognormalEQMOM::momentsToMomentsStar`: the loop runs over the positions of
`moments`; `momentsStar` is returned updated.  The exponent `momenti*momenti`
is a label product, converted to a scalar by `pow`. -/
def momentsToMomentsStar {α : Type} [Field α] (M : ScalarMath α)
    (sigma : α) (moments momentsStar : List α) : Option (List α) :=
  let z := M.exp (-sqr sigma / 2)
  forLoop (fun momenti ms => do
      let v ← moments[momenti]?
      writeAt ms momenti (v * M.pow z ((labelMul momenti momenti : ℤ) : α)))
    moments.length 0 momentsStar

/-- The member `lognormalEQMOM::m2N`.  `momentsStar` is a const reference, copied into the
local `mStar`, the only thing the body touches; the second component of the
result is the caller's `momentsStar` after the call.  `GREAT` is OpenFOAM's
constant (declared outside these sources).  The exponent `nNod*nNod` is a
label product. -/
def m2N {α : Type} [Field α] (M : ScalarMath α) (GREAT : α)
    (nRealizableMoments : List α → ℤ) (sigma : α) (momentsStar : List α) :
    Option (α × List α) :=
  let mStar := momentsStar
  if nRealizableMoments mStar ≥ (mStar.length : ℤ) - 1 then do
    let z := M.exp (sqr sigma / 2)
    let nNod : ℤ := (mStar.length : ℤ) - 1
    let last ← mStar.getLast?
    return (last * M.pow z ((labelMul nNod nNod : ℤ) : α), momentsStar)
  else
    some (GREAT, momentsStar)

/-- The member `lognormalEQMOM::recurrenceRelation`: `a` and `b` are returned updated. -/
def recurrenceRelation {α : Type} [Field α] (M : ScalarMath α)
    (a b : List α) (_primaryAbscissa sigma : α) : Option (List α × List α) := do
  let eta := M.exp (sqr sigma / 2)
  let sqEta := sqr eta
  let a ← writeAt a 0 eta
  let a ← forLoop (fun ai a =>
      writeAt a ai (((sqEta + 1) * M.pow sqEta (ai : α) - 1) * M.pow eta (2 * (ai : α) - 1)))
    (a.length - 1) 1 a
  let b ← writeAt b 0 0
  let b ← forLoop (fun bi b =>
      writeAt b bi (M.pow eta (6 * (bi : α) - 4) * (M.pow sqEta (bi : α) - 1)))
    (b.length - 1) 1 b
  return (a, b)

/-- The member `lognormalEQMOM::sigmaMax`. -/
def sigmaMax {α : Type} [LinearOrderedField α] (M : ScalarMath α)
    (nRealizableMoments : List α → ℤ) (moments : List α) : Option α := do
  let nRealizable := nRealizableMoments moments
  let m0 ← moments[0]?
  let m2 ← moments[2]?
  let m1 ← moments[1]?
  let sigmaZeta1 := M.sqrt (2 * M.log (M.sqrt (m0 * m2 / sqr m1)))
  if nRealizable > 3 then
    let m3 ← moments[3]?
    let sigmaZeta2 := M.sqrt (2 * M.log (M.sqrt (m1 * m3 / sqr m2)))
    return min sigmaZeta1 sigmaZeta2
  return sigmaZeta1

/-- The member `lognormalEQMOM::f`.  The field expression is evaluated entry by entry:
`log(x)`, `- log(primaryAbscissa)`, `sqr`, negation, the division by
`2.0*sqr(sigma)`, `exp`, then the division by the field `x*sigma*sqrt(2.0*pi)`;
the result is added to the zero field `y` of the size of `x`. -/
def f {α : Type} [Field α] (M : ScalarMath α)
    (x : List α) (primaryAbscissa sigma : α) : List α :=
  let y := List.replicate x.length (0 : α)
  let num := ((((x.map M.log).map (· - M.log primaryAbscissa)).map sqr).map (- ·)).map
      (· / (2 * sqr sigma)) |>.map M.exp
  let den := (x.map (· * sigma)).map (· * M.sqrt (2 * M.pi))
  List.zipWith (· + ·) y (List.zipWith (· / ·) num den)

/-- The moment of order `k` of the unit lognormal kernel of width sigma,
`mu_k = exp(k^2 * sigma^2 / 2)`: the quantity the recurrence coefficients are
compared with. -/
def kernelMoment {α : Type} [Field α] (M : ScalarMath α) (sigma : α) (k : ℕ) : α :=
  M.exp ((k : α) ^ 2 * sigma ^ 2 / 2)

end lognormalEQMOM

/-! ## The inversion interface

`extendedMomentInversion.H` and `mStarRealizability.H` declare the state of an
inverter and its operations; the bodies of the operations are not part of these
sources and are modelled from the specification. -/

/-- Ways an inversion ends without a quadrature. -/
inductive InversionError where
  | RealizabilityFailure
  | OutOfBounds
  deriving DecidableEq

/-- The protected data of `extendedMomentInversion` (extendedMomentInversion.H).
The two owned collaborators, `momentInverter_` and `kernel_`, are not fields:
the kernel is the lognormal one above and the inverter is a member of
`Collaborators`.  The three counts are natural numbers. -/
structure extendedMomentInversion (α : Type) where
  nMoments_ : ℕ
  nPrimaryNodes_ : ℕ
  nSecondaryNodes_ : ℕ
  primaryWeights_ : List α
  primaryAbscissae_ : List α
  sigma_ : α
  secondaryWeights_ : List (List α)
  secondaryAbscissae_ : List (List α)
  minMean_ : α
  minVariance_ : α
  maxSigmaIter_ : ℕ
  sigmaMin_ : α
  foundUnrealizableSigma_ : Bool
  nullSigma_ : Bool

/-- What the inversion calls and these sources do not contain. -/
structure Collaborators (α : Type) where
  /-- The classical inversion primitive behind `momentInverter_`: raw moments to
  quadrature weights and abscissae. -/
  momentInverter : List α → List α × List α
  /-- `univariateMomentSet::nRealizableMoments`. -/
  nRealizableMoments : List α → ℤ
  /-- The root search of the strategy: the sigma it resolves for the moments,
  and whether it used up its iteration budget. -/
  sigmaSearch : List α → α × Bool
  /-- The symmetric eigenproblem of the tridiagonal matrix of the recurrence
  coefficients `a`, `b`: secondary weights and kernel-local abscissae. -/
  jacobiQuadrature : List α → List α → List α × List α

namespace extendedMomentInversion

/-- The member `extendedMomentInversion::sigma`. -/
def sigma {α : Type} (self : extendedMomentInversion α) : α := self.sigma_

/-- The member `extendedMomentInversion::primaryWeights`. -/
def primaryWeights {α : Type} (self : extendedMomentInversion α) : List α :=
  self.primaryWeights_

/-- The member `extendedMomentInversion::primaryAbscissae`. -/
def primaryAbscissae {α : Type} (self : extendedMomentInversion α) : List α :=
  self.primaryAbscissae_

/-- Modelled from the spec: the body of `extendedMomentInversion::reset`, which
"clears all previous output state (weights, abscissae, sigma, flags)". -/
def reset {α : Type} [Zero α] (self : extendedMomentInversion α) :
    extendedMomentInversion α :=
  { self with
    primaryWeights_ := List.replicate self.nPrimaryNodes_ 0
    primaryAbscissae_ := List.replicate self.nPrimaryNodes_ 0
    sigma_ := 0
    secondaryWeights_ :=
      List.replicate self.nPrimaryNodes_ (List.replicate self.nSecondaryNodes_ 0)
    secondaryAbscissae_ :=
      List.replicate self.nPrimaryNodes_ (List.replicate self.nSecondaryNodes_ 0)
    foundUnrealizableSigma_ := false
    nullSigma_ := false }

/-- Modelled from the spec: the secondary quadrature of one primary node, a
step of `secondaryQuadrature`: the kernel's recurrence coefficients at the
resolved sigma and the node's abscissa, the quadrature of their tridiagonal
matrix, and the local abscissae mapped by the kernel's `secondaryAbscissa`. -/
def secondaryNode {α : Type} [Field α] (M : ScalarMath α) (C : Collaborators α)
    (self : extendedMomentInversion α) (pAbscissa : α) : Option (List α × List α) := do
  let (a, b) ← lognormalEQMOM.recurrenceRelation M
    (List.replicate self.nSecondaryNodes_ 0) (List.replicate self.nSecondaryNodes_ 0)
    pAbscissa self.sigma_
  let (w, x) := C.jacobiQuadrature a b
  return (w, x.map (fun xl => lognormalEQMOM.secondaryAbscissa pAbscissa xl self.sigma_))

/-- Modelled from the spec: the loop of `secondaryQuadrature` over the primary
nodes. -/
def secondaryNodes {α : Type} [Field α] (M : ScalarMath α) (C : Collaborators α)
    (self : extendedMomentInversion α) : List α → Option (List (List α × List α))
  | [] => some []
  | p :: ps => do
    let node ← secondaryNode M C self p
    let nodes ← secondaryNodes M C self ps
    return node :: nodes

/-- Modelled from the spec: the body of
`extendedMomentInversion::secondaryQuadrature`, which "for each primary node,
requests recurrence coefficients from the kernel at the resolved sigma and that
node's abscissa, forms the associated tridiagonal matrix, diagonalizes it to
obtain nSecondaryNodes (weight, abscissa) pairs, and maps local kernel-frame
abscissae to physical coordinates via the kernel's `secondaryAbscissa`". -/
def secondaryQuadrature {α : Type} [Field α] (M : ScalarMath α) (C : Collaborators α)
    (self : extendedMomentInversion α) (_pWeights pAbscissae : List α) :
    Option (extendedMomentInversion α) := do
  let nodes ← secondaryNodes M C self pAbscissae
  return { self with
    secondaryWeights_ := nodes.map Prod.fst
    secondaryAbscissae_ := nodes.map Prod.snd }

/-- An out-of-range access inside a step ends the inversion. -/
def checked {α : Type} (r : Option (extendedMomentInversion α)) :
    Except InversionError (extendedMomentInversion α) :=
  match r with
  | some s => .ok s
  | none => .error .OutOfBounds

/-- Modelled from the spec: the body of `extendedMomentInversion::invertSingular`,
the "degenerate path when the moment sequence has fewer realizable moments than
required": it "falls back to a reduced-order construction" (the classical
primitive on the raw moments, which yields the nodes the realizable moments
allow) "and sets `nullSigma = true`". -/
def invertSingular {α : Type} [Field α] (M : ScalarMath α) (C : Collaborators α)
    (self : extendedMomentInversion α) (moments : List α) :
    Option (extendedMomentInversion α) :=
  let (w, x) := C.momentInverter moments
  secondaryQuadrature M C
    { self with sigma_ := 0, nullSigma_ := true, primaryWeights_ := w, primaryAbscissae_ := x }
    w x

end extendedMomentInversion

namespace mStarRealizability

/-- Modelled from the spec: the body of `mStarRealizability::invert`, the state
machine of `invert`.  A first moment `<= 0` is a RealizabilityFailure.  Init:
`reset`, then "if below the 2·nPrimaryNodes threshold → Singular:
`invertSingular`, done".  Else RootSearch: the strategy resolves sigma.  "If
resolved sigma < sigmaMin → Fallback: treat sigma as 0, invert the raw moments
directly with the classical primitive".  "Else → Converged: transform moments
to momentsStar at the resolved sigma, invert momentsStar with the classical
primitive to get primary weights/abscissae, then run `secondaryQuadrature`";
an exhausted search sets `foundUnrealizableSigma`. -/
def invert {α : Type} [LinearOrderedField α] (M : ScalarMath α) (C : Collaborators α)
    (self : extendedMomentInversion α) (moments : List α) :
    Except InversionError (extendedMomentInversion α) :=
  match moments[0]? with
  | none => .error .OutOfBounds
  | some m0 =>
    if m0 ≤ 0 then .error .RealizabilityFailure
    else
      let self := extendedMomentInversion.reset self
      if C.nRealizableMoments moments < 2 * (self.nPrimaryNodes_ : ℤ) then
        extendedMomentInversion.checked (extendedMomentInversion.invertSingular M C self moments)
      else
        let (sigma, exhausted) := C.sigmaSearch moments
        if sigma < self.sigmaMin_ then
          let (w, x) := C.momentInverter moments
          extendedMomentInversion.checked (extendedMomentInversion.secondaryQuadrature M C
            { self with
              sigma_ := 0, nullSigma_ := true, primaryWeights_ := w, primaryAbscissae_ := x }
            w x)
        else
          match lognormalEQMOM.momentsToMomentsStar M sigma moments
              (List.replicate self.nMoments_ 0) with
          | none => .error .OutOfBounds
          | some momentsStar =>
            let (w, x) := C.momentInverter momentsStar
            extendedMomentInversion.checked (extendedMomentInversion.secondaryQuadrature M C
              { self with
                sigma_ := sigma, foundUnrealizableSigma_ := exhausted
                primaryWeights_ := w, primaryAbscissae_ := x }
              w x)

end mStarRealizability

/-! ## A concrete inverter

The simplest collaborators: a classical primitive that returns the single node
carrying all the mass at the mean, a moment set all of whose moments are
realizable, a search that resolves sigma = 1, and an eigenproblem that returns
the diagonal.  They serve to run the inversion on concrete moments. -/

/-- One node at the mean `m1/m0` carrying the mass `m0`. -/
def diracCollaborators (α : Type) [Field α] : Collaborators α where
  momentInverter := fun ms => ([ms.headD 0], [ms.getD 1 0 / ms.headD 0])
  nRealizableMoments := fun ms => (ms.length : ℤ)
  sigmaSearch := fun _ => (1, false)
  jacobiQuadrature := fun a _ => (a.map (fun _ => 1), a)

/-- An inverter for 3 moments, 1 primary node and 2 secondary nodes, before its
first inversion. -/
def smallInverter (α : Type) [Field α] : extendedMomentInversion α where
  nMoments_ := 3
  nPrimaryNodes_ := 1
  nSecondaryNodes_ := 2
  primaryWeights_ := [0]
  primaryAbscissae_ := [0]
  sigma_ := 0
  secondaryWeights_ := [[0, 0]]
  secondaryAbscissae_ := [[0, 0]]
  minMean_ := 0
  minVariance_ := 0
  maxSigmaIter_ := 1000
  sigmaMin_ := 0
  foundUnrealizableSigma_ := false
  nullSigma_ := false

/-- The first `n` moments of the uniform distribution on `[0, 1]`,
`m_k = 1/(k+1)`: a moment sequence all of whose moments are realizable. -/
def uniformMoments (α : Type) [Field α] (n : ℕ) : List α :=
  (List.range n).map (fun (k : ℕ) => 1 / ((k : α) + 1))

/-! ## Auxiliary facts about the loop -/

theorem writeAt_eq_some {α : Type} (l : List α) (i : Nat) (v : α) (h : i < l.length) :
    writeAt l i v = some (l.set i v) := by
  simp [writeAt, h]

/-- A loop that copies `g i (src[i])` into position `i` of its state, for the
positions `lo, …, lo + n - 1`, all inside both lists. -/
theorem forLoop_copy {α : Type} (src : List α) (g : Nat → α → α) :
    ∀ (n lo : Nat) (s : List α), lo + n ≤ src.length → lo + n ≤ s.length →
      ∃ r, forLoop (fun i ms => (src[i]?).bind (fun v => writeAt ms i (g i v))) n lo s = some r
        ∧ r.length = s.length
        ∧ ∀ k, r[k]? = if lo ≤ k ∧ k < lo + n then (src[k]?).map (g k) else s[k]? := by
  intro n
  induction n with
  | zero =>
    intro lo s _ _
    refine ⟨s, rfl, rfl, ?_⟩
    intro k
    have : ¬ (lo ≤ k ∧ k < lo + 0) := by omega
    rw [if_neg this]
  | succ n ih =>
    intro lo s h1 h2
    have hlo1 : lo < src.length := by omega
    have hlo2 : lo < s.length := by omega
    obtain ⟨r, hr, hlen, hget⟩ := ih (lo + 1) (s.set lo (g lo src[lo]))
      (by omega) (by simp; omega)
    refine ⟨r, ?_, by simpa using hlen, ?_⟩
    · simp only [forLoop]
      rw [List.getElem?_eq_getElem hlo1]
      simp only [Option.some_bind, writeAt_eq_some _ _ _ hlo2]
      exact hr
    · intro k
      rw [hget k]
      by_cases hk : lo = k
      · subst hk
        have h3 : ¬ (lo + 1 ≤ lo ∧ lo < lo + 1 + n) := by omega
        have h4 : lo ≤ lo ∧ lo < lo + (n + 1) := by omega
        simp [h3, h4, hlo1, hlo2]
      · have h5 : (lo + 1 ≤ k ∧ k < lo + 1 + n) ↔ (lo ≤ k ∧ k < lo + (n + 1)) := by omega
        simp only [h5]
        rw [List.getElem?_set_ne hk]

/-- A label product inside the 32-bit range is the integer product. -/
theorem labelWrap_of_lt (x : ℤ) (h0 : 0 ≤ x) (h1 : x < 2147483648) : labelWrap x = x := by
  simp only [labelWrap, labelBits]
  norm_num
  omega

/-- Up to index 46340 the label product `k*k` does not overflow. -/
theorem labelMul_self_of_le (k : ℕ) (hk : k ≤ 46340) :
    labelMul (k : ℤ) (k : ℤ) = ((k * k : ℕ) : ℤ) := by
  have h : k * k ≤ 46340 * 46340 := Nat.mul_le_mul hk hk
  have h2 : ((k * k : ℕ) : ℤ) ≤ 2147395600 := by exact_mod_cast h
  simp only [labelMul]
  rw [← Nat.cast_mul]
  exact labelWrap_of_lt _ (Int.natCast_nonneg _) (by omega)

/-- Up to index 46340 the power `pow(z, k*k)` has the exponent `k*k`. -/
theorem rpow_labelMul_self (z : ℝ) (k : ℕ) (hk : k ≤ 46340) :
    z ^ ((labelMul (k : ℤ) (k : ℤ) : ℤ) : ℝ) = z ^ (k * k) := by
  rw [labelMul_self_of_le k hk, Int.cast_natCast, Real.rpow_natCast]

theorem momentsToMomentsStar_spec (sigma : ℝ) (moments momentsStar : List ℝ)
    (h : moments.length ≤ momentsStar.length) :
    ∃ r, lognormalEQMOM.momentsToMomentsStar realMath sigma moments momentsStar = some r
      ∧ r.length = momentsStar.length
      ∧ ∀ k : ℕ, r[k]? = if k < moments.length
          then (moments[k]?).map (fun v =>
            v * Real.exp (-sqr sigma / 2) ^ ((labelMul (k : ℤ) (k : ℤ) : ℤ) : ℝ))
          else momentsStar[k]? := by
  obtain ⟨r, hr, hlen, hget⟩ := forLoop_copy moments
    (fun i v => v * realMath.pow (realMath.exp (-sqr sigma / 2))
      ((labelMul (i : ℤ) (i : ℤ) : ℤ) : ℝ))
    moments.length 0 momentsStar (by omega) (by omega)
  refine ⟨r, hr, hlen, ?_⟩
  intro k
  rw [hget k]
  simp only [realMath, Nat.zero_le, true_and, Nat.zero_add]

theorem momentsStarToMoments_spec (sigma : ℝ) (moments momentsStar : List ℝ)
    (h : moments.length ≤ momentsStar.length) :
    ∃ r, lognormalEQMOM.momentsStarToMoments realMath sigma moments momentsStar = some r
      ∧ r.length = moments.length
      ∧ ∀ k : ℕ, r[k]? = if k < moments.length
          then (momentsStar[k]?).map (fun v =>
            v * Real.exp (sqr sigma / 2) ^ ((labelMul (k : ℤ) (k : ℤ) : ℤ) : ℝ))
          else moments[k]? := by
  obtain ⟨r, hr, hlen, hget⟩ := forLoop_copy momentsStar
    (fun i v => v * realMath.pow (realMath.exp (sqr sigma / 2))
      ((labelMul (i : ℤ) (i : ℤ) : ℤ) : ℝ))
    moments.length 0 moments (by omega) (by omega)
  refine ⟨r, hr, hlen, ?_⟩
  intro k
  rw [hget k]
  simp only [realMath, Nat.zero_le, true_and, Nat.zero_add]

/-- The factors of the two transforms cancel, whatever the exponent. -/
theorem exp_neg_half_rpow_mul (x y : ℝ) :
    Real.exp (-x / 2) ^ y * Real.exp (x / 2) ^ y = 1 := by
  rw [← Real.exp_mul, ← Real.exp_mul, ← Real.exp_add]
  have : -x / 2 * y + x / 2 * y = 0 := by ring
  rw [this, Real.exp_zero]

/-! ## The moment transform -/

/-- C1: round trip of the lognormal kernel transform.  For every real sigma and
every moment sequence `m`, `momentsToMomentsStar` into a sequence of the same
length succeeds, and `momentsStarToMoments` of its result, into a sequence of
the same length, returns `m` itself. -/
theorem momentsStarToMoments_momentsToMomentsStar (sigma : ℝ) (m out1 out2 : List ℝ)
    (h1 : out1.length = m.length) (h2 : out2.length = m.length) :
    ∃ mStar, lognormalEQMOM.momentsToMomentsStar realMath sigma m out1 = some mStar
      ∧ mStar.length = m.length
      ∧ lognormalEQMOM.momentsStarToMoments realMath sigma out2 mStar = some m := by
  obtain ⟨mStar, hStar, hlen, hget⟩ := momentsToMomentsStar_spec sigma m out1 (by omega)
  obtain ⟨r, hr, hrlen, hrget⟩ := momentsStarToMoments_spec sigma out2 mStar (by omega)
  refine ⟨mStar, hStar, by omega, ?_⟩
  rw [hr]
  congr 1
  apply List.ext_getElem?
  intro k
  rw [hrget k, hget k]
  by_cases hk : k < m.length
  · have hk2 : k < out2.length := by omega
    rw [if_pos hk2, if_pos hk, List.getElem?_eq_getElem hk]
    simp only [Option.map_some']
    rw [mul_assoc, exp_neg_half_rpow_mul, mul_one]
  · have hk2 : ¬ k < out2.length := by omega
    rw [if_neg hk2, List.getElem?_eq_none (by omega), List.getElem?_eq_none (by omega)]

theorem momentsStarToMoments_momentsToMomentsStar_witness :
    ∃ mStar, lognormalEQMOM.momentsToMomentsStar realMath 1 [1, 2, 5] [0, 0, 0] = some mStar
      ∧ mStar.length = [(1 : ℝ), 2, 5].length
      ∧ lognormalEQMOM.momentsStarToMoments realMath 1 [0, 0, 0] mStar = some [1, 2, 5] :=
  momentsStarToMoments_momentsToMomentsStar 1 [1, 2, 5] [0, 0, 0] [0, 0, 0] rfl rfl

/-- Entry `k` of `momentsToMomentsStar` on `n` equal moments. -/
theorem momentsToMomentsStar_replicate_entry (sigma c d : ℝ) (n k : ℕ) (hk : k < n) :
    ∃ r, lognormalEQMOM.momentsToMomentsStar realMath sigma
          (List.replicate n c) (List.replicate n d) = some r
      ∧ r[k]? = some
          (c * Real.exp (-sqr sigma / 2) ^ ((labelMul (k : ℤ) (k : ℤ) : ℤ) : ℝ)) := by
  obtain ⟨r, hr, _, hget⟩ := momentsToMomentsStar_spec sigma
    (List.replicate n c) (List.replicate n d) (by simp)
  refine ⟨r, hr, ?_⟩
  rw [hget k, List.length_replicate, if_pos hk, List.getElem?_replicate, if_pos hk,
    Option.map_some']

/-- The label product at index 46341. -/
theorem labelMul_46341 : labelMul (46341 : ℤ) (46341 : ℤ) = -2147479015 := by
  simp only [labelMul, labelWrap, labelBits]
  norm_num

/-- C2, as stated, fails from index 46341 on: the exponent `momenti*momenti` is
a 32-bit label product.  With sigma = 1/46341 and 46342 moments equal to 1, at
`k = 46341` the product wraps to -2147479015, so the code stores
`exp(-sigma^2/2)^(-2147479015)`, above 1, where the claim gives
`exp(-sigma^2 * k^2 / 2) = exp(-1/2)`, below 1. -/
theorem momentsToMomentsStar_label_overflow :
    ∃ r, lognormalEQMOM.momentsToMomentsStar realMath (1 / 46341)
          (List.replicate 46342 1) (List.replicate 46342 0) = some r
      ∧ r[46341]? = some (1 * Real.exp (-sqr (1 / 46341 : ℝ) / 2) ^ (-2147479015 : ℝ))
      ∧ 1 < 1 * Real.exp (-sqr (1 / 46341 : ℝ) / 2) ^ (-2147479015 : ℝ)
      ∧ (1 : ℝ) * Real.exp (-(1 / 46341 : ℝ) ^ 2 * ((46341 : ℕ) : ℝ) ^ 2 / 2) < 1 := by
  obtain ⟨r, hr, hget⟩ := momentsToMomentsStar_replicate_entry (1 / 46341) 1 0 46342 46341
    (by norm_num)
  have hcast : ((labelMul ((46341 : ℕ) : ℤ) ((46341 : ℕ) : ℤ) : ℤ) : ℝ) = -2147479015 := by
    rw [Nat.cast_ofNat, labelMul_46341]
    norm_num
  rw [hcast] at hget
  refine ⟨r, hr, hget, ?_, ?_⟩
  · rw [one_mul, ← Real.exp_mul]
    apply Real.one_lt_exp_iff.mpr
    simp only [sqr]
    norm_num
  · rw [one_mul]
    apply Real.exp_lt_one_iff.mpr
    norm_num

/-- C2 (amended): for every sigma, every moment sequence `m` and every order
`k` below the length of `m` with `k <= 46340` (so that the label product `k*k`
stays within 32 bits), `momentsToMomentsStar` (into a sequence that has the
positions of `m`) succeeds and leaves
`momentsStar[k] = m[k] * exp(-sigma^2 * k^2 / 2)`. -/
theorem momentsToMomentsStar_entry (sigma : ℝ) (m momentsStar : List ℝ) (k : ℕ)
    (hlen : m.length ≤ momentsStar.length) (hk : k < m.length) (hk32 : k ≤ 46340) :
    ∃ r, lognormalEQMOM.momentsToMomentsStar realMath sigma m momentsStar = some r
      ∧ r[k]? = some (m[k] * Real.exp (-sigma ^ 2 * (k : ℝ) ^ 2 / 2)) := by
  obtain ⟨r, hr, _, hget⟩ := momentsToMomentsStar_spec sigma m momentsStar hlen
  refine ⟨r, hr, ?_⟩
  rw [hget k, if_pos hk, List.getElem?_eq_getElem hk]
  simp only [Option.map_some']
  rw [rpow_labelMul_self _ k hk32, ← Real.exp_nat_mul]
  congr 3
  simp only [sqr]
  push_cast
  ring

theorem momentsToMomentsStar_entry_witness :
    ∃ r, lognormalEQMOM.momentsToMomentsStar realMath 1 [1, 2, 5] [0, 0, 0] = some r
      ∧ r[2]? = some ([(1 : ℝ), 2, 5][2] * Real.exp (-(1 : ℝ) ^ 2 * ((2 : ℕ) : ℝ) ^ 2 / 2)) :=
  momentsToMomentsStar_entry 1 [1, 2, 5] [0, 0, 0] 2 (by simp) (by simp) (by norm_num)

/-- C3: at sigma = 0 both transforms are the identity.  For every moment
sequence `m`, `momentsToMomentsStar(0, m)` and `momentsStarToMoments(0, m)`, into
a sequence of the length of `m`, both return `m` unchanged. -/
theorem transforms_at_zero_sigma (m out : List ℝ) (h : out.length = m.length) :
    lognormalEQMOM.momentsToMomentsStar realMath 0 m out = some m
      ∧ lognormalEQMOM.momentsStarToMoments realMath 0 out m = some m := by
  obtain ⟨r1, hr1, _, hget1⟩ := momentsToMomentsStar_spec 0 m out (by omega)
  obtain ⟨r2, hr2, _, hget2⟩ := momentsStarToMoments_spec 0 out m (by omega)
  have hz1 : Real.exp (-sqr (0 : ℝ) / 2) = 1 := by simp [sqr]
  have hz2 : Real.exp (sqr (0 : ℝ) / 2) = 1 := by simp [sqr]
  constructor
  · rw [hr1]
    congr 1
    apply List.ext_getElem?
    intro k
    rw [hget1 k, hz1]
    by_cases hk : k < m.length
    · rw [if_pos hk]; simp
    · rw [if_neg hk, List.getElem?_eq_none (by omega), List.getElem?_eq_none (by omega)]
  · rw [hr2]
    congr 1
    apply List.ext_getElem?
    intro k
    rw [hget2 k, hz2]
    by_cases hk : k < out.length
    · rw [if_pos hk]; simp
    · rw [if_neg hk, List.getElem?_eq_none (by omega), List.getElem?_eq_none (by omega)]

theorem transforms_at_zero_sigma_witness :
    lognormalEQMOM.momentsToMomentsStar realMath 0 [1, 2, 5] [0, 0, 0] = some [1, 2, 5]
      ∧ lognormalEQMOM.momentsStarToMoments realMath 0 [0, 0, 0] [1, 2, 5] = some [1, 2, 5] :=
  transforms_at_zero_sigma [1, 2, 5] [0, 0, 0] rfl

/-! ## The recurrence relation -/

/-- A loop that stores `g i` at position `i` of its state, for the positions
`lo, …, lo + n - 1`, all inside the list. -/
theorem forLoop_fill {α : Type} (g : Nat → α) :
    ∀ (n lo : Nat) (s : List α), lo + n ≤ s.length →
      ∃ r, forLoop (fun i ms => writeAt ms i (g i)) n lo s = some r
        ∧ r.length = s.length
        ∧ ∀ k, r[k]? = if lo ≤ k ∧ k < lo + n then some (g k) else s[k]? := by
  intro n
  induction n with
  | zero =>
    intro lo s _
    refine ⟨s, rfl, rfl, ?_⟩
    intro k
    have : ¬ (lo ≤ k ∧ k < lo + 0) := by omega
    rw [if_neg this]
  | succ n ih =>
    intro lo s h1
    have hlo : lo < s.length := by omega
    obtain ⟨r, hr, hlen, hget⟩ := ih (lo + 1) (s.set lo (g lo)) (by simp; omega)
    refine ⟨r, ?_, by simpa using hlen, ?_⟩
    · simp only [forLoop, writeAt_eq_some _ _ _ hlo, Option.some_bind]
      exact hr
    · intro k
      rw [hget k]
      by_cases hk : lo = k
      · subst hk
        have h3 : ¬ (lo + 1 ≤ lo ∧ lo < lo + 1 + n) := by omega
        have h4 : lo ≤ lo ∧ lo < lo + (n + 1) := by omega
        simp [h3, h4, hlo]
      · have h5 : (lo + 1 ≤ k ∧ k < lo + 1 + n) ↔ (lo ≤ k ∧ k < lo + (n + 1)) := by omega
        simp only [h5]
        rw [List.getElem?_set_ne hk]

/-- Storing at position 0 and then filling the positions `1, …` of a non-empty
list: the shape of both halves of `recurrenceRelation`. -/
theorem writeAt_zero_then_fill {α : Type} (l : List α) (v : α) (g : Nat → α) (hl : l ≠ []) :
    ∃ r, ((writeAt l 0 v).bind fun l1 =>
            forLoop (fun i ms => writeAt ms i (g i)) (l1.length - 1) 1 l1) = some r
      ∧ r.length = l.length
      ∧ ∀ k, k < l.length → r[k]? = some (if k = 0 then v else g k) := by
  have hpos : 0 < l.length := List.length_pos.mpr hl
  obtain ⟨r, hr, hlen, hget⟩ := forLoop_fill g ((l.set 0 v).length - 1) 1 (l.set 0 v)
    (by simp; omega)
  refine ⟨r, ?_, by simpa using hlen, ?_⟩
  · rw [writeAt_eq_some _ _ _ hpos, Option.some_bind]
    exact hr
  · intro k hk
    rw [hget k]
    by_cases h0 : k = 0
    · subst h0
      simp [hpos]
    · have : 1 ≤ k ∧ k < 1 + ((l.set 0 v).length - 1) := by simp; omega
      rw [if_pos this, if_neg h0]

/-- What `recurrenceRelation` leaves in `a` and `b`, over the reals. -/
theorem recurrenceRelation_spec (sigma primaryAbscissa : ℝ) (a b : List ℝ)
    (ha : a ≠ []) (hb : b ≠ []) :
    ∃ a1 b1, lognormalEQMOM.recurrenceRelation realMath a b primaryAbscissa sigma = some (a1, b1)
      ∧ a1.length = a.length ∧ b1.length = b.length
      ∧ (∀ k, k < a.length → a1[k]? = some (if k = 0 then Real.exp (sqr sigma / 2) else
            ((sqr (Real.exp (sqr sigma / 2)) + 1) * sqr (Real.exp (sqr sigma / 2)) ^ (k : ℝ) - 1)
              * Real.exp (sqr sigma / 2) ^ (2 * (k : ℝ) - 1)))
      ∧ (∀ k, k < b.length → b1[k]? = some (if k = 0 then 0 else
            Real.exp (sqr sigma / 2) ^ (6 * (k : ℝ) - 4)
              * (sqr (Real.exp (sqr sigma / 2)) ^ (k : ℝ) - 1))) := by
  obtain ⟨a1, hA, hAlen, hAget⟩ := writeAt_zero_then_fill a (Real.exp (sqr sigma / 2))
    (fun k => ((sqr (Real.exp (sqr sigma / 2)) + 1) * sqr (Real.exp (sqr sigma / 2)) ^ (k : ℝ) - 1)
              * Real.exp (sqr sigma / 2) ^ (2 * (k : ℝ) - 1)) ha
  obtain ⟨b1, hB, hBlen, hBget⟩ := writeAt_zero_then_fill b (0 : ℝ)
    (fun k => Real.exp (sqr sigma / 2) ^ (6 * (k : ℝ) - 4)
              * (sqr (Real.exp (sqr sigma / 2)) ^ (k : ℝ) - 1)) hb
  refine ⟨a1, b1, ?_, hAlen, hBlen, hAget, hBget⟩
  have hA2 := Option.bind_eq_some.mp hA
  obtain ⟨a0, ha0, ha1⟩ := hA2
  have hB2 := Option.bind_eq_some.mp hB
  obtain ⟨b0, hb0, hb1⟩ := hB2
  simp only [lognormalEQMOM.recurrenceRelation, realMath, bind, pure]
  rw [ha0, Option.some_bind, ha1, Option.some_bind, hb0, Option.some_bind, hb1, Option.some_bind]

/-- C4: at sigma = 0 the secondary nodes collapse onto their primary node.  For
every `primaryAbscissa` and non-empty coefficient lists, `recurrenceRelation`
at sigma = 0 leaves `a[i] = 1` and `b[i] = 0` at every index `i`, and
`secondaryAbscissa(primaryAbscissa, a[i], 0) = primaryAbscissa`. -/
theorem recurrenceRelation_zero_sigma (primaryAbscissa : ℝ) (a b : List ℝ)
    (ha : a ≠ []) (hb : b ≠ []) :
    ∃ a1 b1, lognormalEQMOM.recurrenceRelation realMath a b primaryAbscissa 0 = some (a1, b1)
      ∧ a1.length = a.length ∧ b1.length = b.length
      ∧ (∀ i, i < a.length → a1[i]? = some 1)
      ∧ (∀ i, i < b.length → b1[i]? = some 0)
      ∧ (∀ (i : ℕ) (v : ℝ), a1[i]? = some v →
          lognormalEQMOM.secondaryAbscissa primaryAbscissa v 0 = primaryAbscissa) := by
  obtain ⟨a1, b1, hrr, hla, hlb, hA, hB⟩ := recurrenceRelation_spec 0 primaryAbscissa a b ha hb
  have heta : Real.exp (sqr (0 : ℝ) / 2) = 1 := by simp [sqr]
  have hAone : ∀ i, i < a.length → a1[i]? = some 1 := by
    intro i hi
    rw [hA i hi, heta]
    by_cases h0 : i = 0
    · rw [if_pos h0]
    · rw [if_neg h0]
      simp only [sqr, mul_one, Real.one_rpow]
      norm_num
  refine ⟨a1, b1, hrr, hla, hlb, hAone, ?_, ?_⟩
  · intro i hi
    rw [hB i hi, heta]
    by_cases h0 : i = 0
    · rw [if_pos h0]
    · rw [if_neg h0]
      simp only [sqr, mul_one, Real.one_rpow]
      norm_num
  · intro i v hv
    have hi : i < a.length := by
      by_contra hcon
      rw [List.getElem?_eq_none (by omega)] at hv
      exact Option.noConfusion hv
    rw [hAone i hi] at hv
    have hv1 : v = 1 := (Option.some.inj hv).symm
    rw [hv1]
    simp [lognormalEQMOM.secondaryAbscissa]

theorem recurrenceRelation_zero_sigma_witness :
    ∃ a1 b1, lognormalEQMOM.recurrenceRelation realMath [7, 7, 7] [5, 5, 5] 3 0 = some (a1, b1)
      ∧ a1.length = [(7 : ℝ), 7, 7].length ∧ b1.length = [(5 : ℝ), 5, 5].length
      ∧ (∀ i, i < [(7 : ℝ), 7, 7].length → a1[i]? = some 1)
      ∧ (∀ i, i < [(5 : ℝ), 5, 5].length → b1[i]? = some 0)
      ∧ (∀ (i : ℕ) (v : ℝ), a1[i]? = some v → lognormalEQMOM.secondaryAbscissa (3 : ℝ) v 0 = 3) :=
  recurrenceRelation_zero_sigma 3 [7, 7, 7] [5, 5, 5] (by simp) (by simp)

/-- C5: for every sigma, every `primaryAbscissa` and every non-empty coefficient
lists `a` and `b`, `recurrenceRelation` leaves `a[0] = exp(sigma^2 / 2)` and
`b[0] = 0`; at sigma = 0.5 and `primaryAbscissa` = 2.0 it leaves
`a[0] = exp(0.125)`. -/
theorem recurrenceRelation_first_coefficients (sigma primaryAbscissa : ℝ) (a b : List ℝ)
    (ha : a ≠ []) (hb : b ≠ []) :
    (∃ a1 b1, lognormalEQMOM.recurrenceRelation realMath a b primaryAbscissa sigma
          = some (a1, b1)
        ∧ a1[0]? = some (Real.exp (sigma ^ 2 / 2)) ∧ b1[0]? = some 0)
      ∧ (∃ a2 b2, lognormalEQMOM.recurrenceRelation realMath a b 2.0 0.5 = some (a2, b2)
        ∧ a2[0]? = some (Real.exp 0.125)) := by
  have hpa : 0 < a.length := List.length_pos.mpr ha
  have hpb : 0 < b.length := List.length_pos.mpr hb
  constructor
  · obtain ⟨a1, b1, hrr, _, _, hA, hB⟩ := recurrenceRelation_spec sigma primaryAbscissa a b ha hb
    refine ⟨a1, b1, hrr, ?_, ?_⟩
    · rw [hA 0 hpa, if_pos rfl]
      simp only [sqr, pow_two]
    · rw [hB 0 hpb, if_pos rfl]
  · obtain ⟨a2, b2, hrr, _, _, hA, _⟩ := recurrenceRelation_spec 0.5 2.0 a b ha hb
    refine ⟨a2, b2, hrr, ?_⟩
    rw [hA 0 hpa, if_pos rfl]
    congr 2
    simp only [sqr]
    norm_num

theorem recurrenceRelation_first_coefficients_witness :
    (∃ a1 b1, lognormalEQMOM.recurrenceRelation realMath [7, 7] [5, 5] 3 1 = some (a1, b1)
        ∧ a1[0]? = some (Real.exp ((1 : ℝ) ^ 2 / 2)) ∧ b1[0]? = some 0)
      ∧ (∃ a2 b2, lognormalEQMOM.recurrenceRelation realMath [7, 7] [5, 5] 2.0 0.5 = some (a2, b2)
        ∧ a2[0]? = some (Real.exp 0.125)) :=
  recurrenceRelation_first_coefficients 1 3 [7, 7] [5, 5] (by simp) (by simp)

/-! ## The bound on sigma -/

/-- C6: `sigmaMax` uses the tighter of the derived bounds when more moments are
realizable.  With `s1 = sqrt(2*log(sqrt(m0*m2/m1^2)))` and
`s2 = sqrt(2*log(sqrt(m1*m3/m2^2)))`, `sigmaMax` returns `s1` when
`nRealizableMoments <= 3` and `min(s1, s2)` when `nRealizableMoments > 3`; its
result never exceeds `s1`, and with at most 3 realizable moments it does not
depend on the moments after `m2`. -/
theorem sigmaMax_tighter_bound (nRealizableMoments : List ℝ → ℤ) (m0 m1 m2 : ℝ)
    (rest : List ℝ) :
    (nRealizableMoments (m0 :: m1 :: m2 :: rest) ≤ 3 →
        lognormalEQMOM.sigmaMax realMath nRealizableMoments (m0 :: m1 :: m2 :: rest)
          = some (Real.sqrt (2 * Real.log (Real.sqrt (m0 * m2 / m1 ^ 2)))))
      ∧ (∀ m3 tail, rest = m3 :: tail → nRealizableMoments (m0 :: m1 :: m2 :: rest) > 3 →
        lognormalEQMOM.sigmaMax realMath nRealizableMoments (m0 :: m1 :: m2 :: rest)
          = some (min (Real.sqrt (2 * Real.log (Real.sqrt (m0 * m2 / m1 ^ 2))))
                      (Real.sqrt (2 * Real.log (Real.sqrt (m1 * m3 / m2 ^ 2))))))
      ∧ (∀ r, lognormalEQMOM.sigmaMax realMath nRealizableMoments (m0 :: m1 :: m2 :: rest)
            = some r → r ≤ Real.sqrt (2 * Real.log (Real.sqrt (m0 * m2 / m1 ^ 2))))
      ∧ (∀ rest2, nRealizableMoments (m0 :: m1 :: m2 :: rest) ≤ 3 →
          nRealizableMoments (m0 :: m1 :: m2 :: rest2) ≤ 3 →
          lognormalEQMOM.sigmaMax realMath nRealizableMoments (m0 :: m1 :: m2 :: rest)
            = lognormalEQMOM.sigmaMax realMath nRealizableMoments (m0 :: m1 :: m2 :: rest2)) := by
  have hle : ∀ tl, nRealizableMoments (m0 :: m1 :: m2 :: tl) ≤ 3 →
      lognormalEQMOM.sigmaMax realMath nRealizableMoments (m0 :: m1 :: m2 :: tl)
        = some (Real.sqrt (2 * Real.log (Real.sqrt (m0 * m2 / m1 ^ 2)))) := by
    intro tl h
    have h3 : ¬ nRealizableMoments (m0 :: m1 :: m2 :: tl) > 3 := by omega
    simp [lognormalEQMOM.sigmaMax, realMath, sqr, pow_two, h3]
  have hgt : ∀ m3 tail, nRealizableMoments (m0 :: m1 :: m2 :: m3 :: tail) > 3 →
      lognormalEQMOM.sigmaMax realMath nRealizableMoments (m0 :: m1 :: m2 :: m3 :: tail)
        = some (min (Real.sqrt (2 * Real.log (Real.sqrt (m0 * m2 / m1 ^ 2))))
                    (Real.sqrt (2 * Real.log (Real.sqrt (m1 * m3 / m2 ^ 2))))) := by
    intro m3 tail h
    simp [lognormalEQMOM.sigmaMax, realMath, sqr, pow_two, h]
  refine ⟨hle rest, ?_, ?_, ?_⟩
  · intro m3 tail hrest h
    subst hrest
    exact hgt m3 tail h
  · intro r hr
    by_cases h : nRealizableMoments (m0 :: m1 :: m2 :: rest) ≤ 3
    · rw [hle rest h] at hr
      exact le_of_eq (Option.some.inj hr).symm
    · have h3 : nRealizableMoments (m0 :: m1 :: m2 :: rest) > 3 := by omega
      cases rest with
      | nil =>
        simp [lognormalEQMOM.sigmaMax, h3] at hr
      | cons m3 tail =>
        rw [hgt m3 tail h3] at hr
        rw [← Option.some.inj hr]
        exact min_le_left _ _
  · intro rest2 h1 h2
    rw [hle rest h1, hle rest2 h2]

theorem sigmaMax_tighter_bound_witness :
    lognormalEQMOM.sigmaMax realMath (fun _ => 3) [1, 2, 5, 14]
        = some (Real.sqrt (2 * Real.log (Real.sqrt (1 * 5 / (2 : ℝ) ^ 2))))
      ∧ lognormalEQMOM.sigmaMax realMath (fun _ => 4) [1, 2, 5, 14]
        = some (min (Real.sqrt (2 * Real.log (Real.sqrt (1 * 5 / (2 : ℝ) ^ 2))))
                    (Real.sqrt (2 * Real.log (Real.sqrt (2 * 14 / (5 : ℝ) ^ 2))))) :=
  ⟨(sigmaMax_tighter_bound (fun _ => 3) 1 2 5 [14]).1 (by decide),
   (sigmaMax_tighter_bound (fun _ => 4) 1 2 5 [14]).2.1 14 [] rfl (by decide)⟩

/-! ## The highest even moment -/

/-- The formula branch of `m2N`, over the reals. -/
theorem m2N_formula_branch (GREAT : ℝ) (nRealizableMoments : List ℝ → ℤ) (sigma : ℝ)
    (momentsStar : List ℝ) (hne : momentsStar ≠ [])
    (hreal : nRealizableMoments momentsStar ≥ (momentsStar.length : ℤ) - 1) :
    lognormalEQMOM.m2N realMath GREAT nRealizableMoments sigma momentsStar
      = some (momentsStar.getLast hne * Real.exp (sqr sigma / 2)
          ^ ((labelMul ((momentsStar.length : ℤ) - 1) ((momentsStar.length : ℤ) - 1) : ℤ) : ℝ),
          momentsStar) := by
  simp only [lognormalEQMOM.m2N, if_pos hreal, List.getLast?_eq_getLast _ hne,
    realMath, bind, pure, Option.some_bind]

/-- The sentinel branch of `m2N`. -/
theorem m2N_sentinel_branch (GREAT : ℝ) (nRealizableMoments : List ℝ → ℤ) (sigma : ℝ)
    (momentsStar : List ℝ)
    (hreal : nRealizableMoments momentsStar < (momentsStar.length : ℤ) - 1) :
    lognormalEQMOM.m2N realMath GREAT nRealizableMoments sigma momentsStar
      = some (GREAT, momentsStar) := by
  have h2 : ¬ nRealizableMoments momentsStar ≥ (momentsStar.length : ℤ) - 1 := by omega
  simp only [lognormalEQMOM.m2N, if_neg h2]

/-- Value of `m2N` on `k + 1` moments of the uniform distribution, all realizable. -/
theorem m2N_uniformMoments (GREAT sigma : ℝ) (n k : ℕ) (hk : k + 1 = n) :
    (uniformMoments ℝ n)[k]? = some (1 / ((k : ℝ) + 1))
      ∧ (lognormalEQMOM.m2N realMath GREAT (fun ms => (ms.length : ℤ)) sigma
            (uniformMoments ℝ n)).map Prod.fst
          = some (1 / ((k : ℝ) + 1)
              * Real.exp (sqr sigma / 2) ^ ((labelMul (k : ℤ) (k : ℤ) : ℤ) : ℝ)) := by
  subst hk
  have hlen : (uniformMoments ℝ (k + 1)).length = k + 1 := by
    simp [uniformMoments]
  have hne : uniformMoments ℝ (k + 1) ≠ [] := by
    intro h
    rw [h] at hlen
    simp at hlen
  have hlast : (uniformMoments ℝ (k + 1)).getLast hne = 1 / ((k : ℝ) + 1) := by
    rw [List.getLast_eq_getElem]
    simp [uniformMoments]
  have hidx : ((uniformMoments ℝ (k + 1)).length : ℤ) - 1 = (k : ℤ) := by
    rw [hlen]
    push_cast
    ring
  constructor
  · simp [uniformMoments]
  · rw [m2N_formula_branch GREAT _ sigma _ hne (by simp), Option.map_some', hlast, hidx]

/-- C7, as stated, fails in two ways.  (1) The sentinel is an ordinary scalar:
with `GREAT = 1e15` (its value for double precision), sigma = 0 and the
realizable sequence `[1, 1, 1e15]` (3 realizable moments, so
`nRealizableMoments >= n - 1`) the formula branch is taken and returns
`1e15 * 1 = GREAT`.  (2) The exponent `nNod*nNod` is a 32-bit label product:
on 46342 realizable moments `m_k = 1/(k+1)` at sigma = 1/46341 it wraps to
-2147479015, and the value returned is below `momentsStar[n-1]`, while
`momentsStar[n-1] * exp(sigma^2/2)^((n-1)^2)` is above it. -/
theorem m2N_sentinel_collision_and_label_overflow :
    ((lognormalEQMOM.m2N realMath (10 ^ 15) (fun _ => 3) 0 [1, 1, 10 ^ 15]).map Prod.fst
          = some ((10 : ℝ) ^ 15)
        ∧ ¬ ((3 : ℤ) < (([1, 1, 10 ^ 15] : List ℝ).length : ℤ) - 1))
      ∧ (∃ last v, (uniformMoments ℝ 46342)[46341]? = some last
        ∧ (lognormalEQMOM.m2N realMath (10 ^ 15) (fun ms => (ms.length : ℤ)) (1 / 46341)
              (uniformMoments ℝ 46342)).map Prod.fst = some v
        ∧ v < last
        ∧ last < last * Real.exp ((1 / 46341 : ℝ) ^ 2 / 2) ^ (46341 ^ 2)) := by
  refine ⟨⟨?_, by decide⟩, ?_⟩
  · simp [lognormalEQMOM.m2N, realMath, sqr, labelMul, labelWrap, labelBits]
  · obtain ⟨hlast, hval⟩ := m2N_uniformMoments (10 ^ 15) (1 / 46341) 46342 46341 (by norm_num)
    have hcast : ((labelMul ((46341 : ℕ) : ℤ) ((46341 : ℕ) : ℤ) : ℤ) : ℝ) = -2147479015 := by
      rw [Nat.cast_ofNat, labelMul_46341]
      norm_num
    rw [hcast] at hval
    have hpos : (0 : ℝ) < 1 / (((46341 : ℕ) : ℝ) + 1) := by positivity
    have hz : 1 < Real.exp ((1 / 46341 : ℝ) ^ 2 / 2) := by
      apply Real.one_lt_exp_iff.mpr
      positivity
    refine ⟨_, _, hlast, hval, ?_, ?_⟩
    · have : Real.exp (sqr (1 / 46341 : ℝ) / 2) ^ (-2147479015 : ℝ) < 1 := by
        rw [← Real.exp_mul]
        apply Real.exp_lt_one_iff.mpr
        simp only [sqr]
        norm_num
      calc 1 / (((46341 : ℕ) : ℝ) + 1) * Real.exp (sqr (1 / 46341 : ℝ) / 2) ^ (-2147479015 : ℝ)
          < 1 / (((46341 : ℕ) : ℝ) + 1) * 1 := mul_lt_mul_of_pos_left this hpos
        _ = 1 / (((46341 : ℕ) : ℝ) + 1) := mul_one _
    · have : 1 < Real.exp ((1 / 46341 : ℝ) ^ 2 / 2) ^ (46341 ^ 2) :=
        one_lt_pow₀ hz (by norm_num)
      calc 1 / (((46341 : ℕ) : ℝ) + 1) = 1 / (((46341 : ℕ) : ℝ) + 1) * 1 := (mul_one _).symm
        _ < 1 / (((46341 : ℕ) : ℝ) + 1) * Real.exp ((1 / 46341 : ℝ) ^ 2 / 2) ^ (46341 ^ 2) :=
          mul_lt_mul_of_pos_left this hpos

/-- C7 (amended): for every sigma and every non-empty `momentsStar` of length
`n`, `m2N` returns the sentinel `GREAT` whenever
`nRealizableMoments(momentsStar) < n - 1`, and otherwise returns
`momentsStar[n-1] * exp(sigma^2/2)^e`, where `e` is the 32-bit label product
`(n-1)*(n-1)` (a value that can itself be `GREAT`); for `n <= 46341` the
product does not overflow and the value is
`momentsStar[n-1] * exp(sigma^2/2)^((n-1)^2)`; the input sequence is not
modified. -/
theorem m2N_value (GREAT : ℝ) (nRealizableMoments : List ℝ → ℤ) (sigma : ℝ)
    (momentsStar : List ℝ) (hne : momentsStar ≠ []) :
    ∃ last, momentsStar[momentsStar.length - 1]? = some last
      ∧ lognormalEQMOM.m2N realMath GREAT nRealizableMoments sigma momentsStar
        = some (if nRealizableMoments momentsStar < (momentsStar.length : ℤ) - 1 then GREAT
                else last * Real.exp (sigma ^ 2 / 2)
                  ^ ((labelMul ((momentsStar.length : ℤ) - 1)
                      ((momentsStar.length : ℤ) - 1) : ℤ) : ℝ),
                momentsStar)
      ∧ (momentsStar.length ≤ 46341 →
        lognormalEQMOM.m2N realMath GREAT nRealizableMoments sigma momentsStar
        = some (if nRealizableMoments momentsStar < (momentsStar.length : ℤ) - 1 then GREAT
                else last * Real.exp (sigma ^ 2 / 2) ^ ((momentsStar.length - 1) ^ 2),
                momentsStar)) := by
  have hpos : 0 < momentsStar.length := List.length_pos.mpr hne
  have hsq : sqr sigma = sigma ^ 2 := by simp only [sqr, pow_two]
  have hgen : lognormalEQMOM.m2N realMath GREAT nRealizableMoments sigma momentsStar
      = some (if nRealizableMoments momentsStar < (momentsStar.length : ℤ) - 1 then GREAT
              else momentsStar.getLast hne * Real.exp (sigma ^ 2 / 2)
                ^ ((labelMul ((momentsStar.length : ℤ) - 1)
                    ((momentsStar.length : ℤ) - 1) : ℤ) : ℝ),
              momentsStar) := by
    by_cases h : nRealizableMoments momentsStar < (momentsStar.length : ℤ) - 1
    · rw [if_pos h]
      exact m2N_sentinel_branch GREAT nRealizableMoments sigma momentsStar h
    · rw [if_neg h, ← hsq]
      exact m2N_formula_branch GREAT nRealizableMoments sigma momentsStar hne (by omega)
  refine ⟨momentsStar.getLast hne, ?_, hgen, ?_⟩
  · rw [List.getLast_eq_getElem, List.getElem?_eq_getElem]
  · intro hn
    have hidx : (momentsStar.length : ℤ) - 1 = ((momentsStar.length - 1 : ℕ) : ℤ) := by
      push_cast [Nat.cast_sub hpos]
      ring
    have hexp : Real.exp (sigma ^ 2 / 2)
          ^ ((labelMul ((momentsStar.length : ℤ) - 1) ((momentsStar.length : ℤ) - 1) : ℤ) : ℝ)
        = Real.exp (sigma ^ 2 / 2) ^ ((momentsStar.length - 1) ^ 2) := by
      rw [hidx, rpow_labelMul_self _ _ (by omega), ← pow_two]
    rw [hgen, hexp]

theorem m2N_value_witness :
    ∃ last, [(1 : ℝ), 2, 5][[(1 : ℝ), 2, 5].length - 1]? = some last
      ∧ lognormalEQMOM.m2N realMath (10 ^ 15) (fun _ => 3) 1 [1, 2, 5]
        = some (if (3 : ℤ) < ([(1 : ℝ), 2, 5].length : ℤ) - 1 then 10 ^ 15
                else last * Real.exp ((1 : ℝ) ^ 2 / 2)
                  ^ ((labelMul (([(1 : ℝ), 2, 5].length : ℤ) - 1)
                      (([(1 : ℝ), 2, 5].length : ℤ) - 1) : ℤ) : ℝ),
                [1, 2, 5])
      ∧ ([(1 : ℝ), 2, 5].length ≤ 46341 →
        lognormalEQMOM.m2N realMath (10 ^ 15) (fun _ => 3) 1 [1, 2, 5]
        = some (if (3 : ℤ) < ([(1 : ℝ), 2, 5].length : ℤ) - 1 then 10 ^ 15
                else last * Real.exp ((1 : ℝ) ^ 2 / 2) ^ (([(1 : ℝ), 2, 5].length - 1) ^ 2),
                [1, 2, 5])) :=
  m2N_value (10 ^ 15) (fun _ => 3) 1 [1, 2, 5] (by simp)

/-! ## Secondary abscissae and the density -/

/-- C8: for the lognormal kernel
`secondaryAbscissa(primaryAbscissa, localAbscissa, sigma)` is
`primaryAbscissa * localAbscissa` for every input; it does not depend on sigma,
and it is `>= 0` whenever both abscissae are `>= 0`. -/
theorem secondaryAbscissa_product (primaryAbscissa localAbscissa sigma : ℝ) :
    lognormalEQMOM.secondaryAbscissa primaryAbscissa localAbscissa sigma
        = primaryAbscissa * localAbscissa
      ∧ (∀ sigma2 : ℝ, lognormalEQMOM.secondaryAbscissa primaryAbscissa localAbscissa sigma2
          = lognormalEQMOM.secondaryAbscissa primaryAbscissa localAbscissa sigma)
      ∧ (0 ≤ primaryAbscissa → 0 ≤ localAbscissa →
          0 ≤ lognormalEQMOM.secondaryAbscissa primaryAbscissa localAbscissa sigma) := by
  refine ⟨rfl, fun _ => rfl, ?_⟩
  intro hp hl
  exact mul_nonneg hp hl

theorem secondaryAbscissa_product_witness :
    0 ≤ lognormalEQMOM.secondaryAbscissa (2 : ℝ) 3 1 :=
  (secondaryAbscissa_product 2 3 1).2.2 (by norm_num) (by norm_num)

/-- Entry `i` of `f`: the density formula applied to entry `i` of `x`. -/
theorem f_getElem? (x : List ℝ) (primaryAbscissa sigma : ℝ) (i : ℕ) :
    (lognormalEQMOM.f realMath x primaryAbscissa sigma)[i]? = (x[i]?).map (fun xi =>
      Real.exp (-(Real.log xi - Real.log primaryAbscissa) ^ 2 / (2 * sigma ^ 2))
        / (xi * sigma * Real.sqrt (2 * Real.pi))) := by
  simp only [lognormalEQMOM.f, realMath, List.getElem?_zipWith, List.getElem?_map,
    List.getElem?_replicate]
  by_cases hi : i < x.length
  · simp [hi, List.getElem?_eq_getElem hi, sqr, pow_two]
  · simp [hi, List.getElem?_eq_none (Nat.le_of_not_lt hi)]

/-- C9: `f(x, primaryAbscissa, sigma)` is a field of the length of `x` whose
`i`-th entry is the lognormal density
`exp(-(log x_i - log primaryAbscissa)^2 / (2*sigma^2)) / (x_i * sigma * sqrt(2*pi))`;
an entry is strictly positive when `x_i > 0`, `primaryAbscissa > 0` and
`sigma > 0`; and an entry depends only on its own `x_i`. -/
theorem f_lognormal_density (x : List ℝ) (primaryAbscissa sigma : ℝ) :
    (lognormalEQMOM.f realMath x primaryAbscissa sigma).length = x.length
      ∧ (∀ (i : ℕ) (xi : ℝ), x[i]? = some xi →
          (lognormalEQMOM.f realMath x primaryAbscissa sigma)[i]? = some
            (Real.exp (-(Real.log xi - Real.log primaryAbscissa) ^ 2 / (2 * sigma ^ 2))
              / (xi * sigma * Real.sqrt (2 * Real.pi))))
      ∧ (0 < primaryAbscissa → 0 < sigma → ∀ (i : ℕ) (xi : ℝ), x[i]? = some xi → 0 < xi →
          ∃ y, (lognormalEQMOM.f realMath x primaryAbscissa sigma)[i]? = some y ∧ 0 < y)
      ∧ (∀ (x2 : List ℝ) (i : ℕ), x[i]? = x2[i]? →
          (lognormalEQMOM.f realMath x primaryAbscissa sigma)[i]?
            = (lognormalEQMOM.f realMath x2 primaryAbscissa sigma)[i]?) := by
  refine ⟨?_, ?_, ?_, ?_⟩
  · simp [lognormalEQMOM.f]
  · intro i xi hxi
    rw [f_getElem?, hxi, Option.map_some']
  · intro _ hs i xi hxi hpos
    refine ⟨_, by rw [f_getElem?, hxi, Option.map_some'], ?_⟩
    have hsqrt : 0 < Real.sqrt (2 * Real.pi) := Real.sqrt_pos.mpr (by positivity)
    exact div_pos (Real.exp_pos _) (mul_pos (mul_pos hpos hs) hsqrt)
  · intro x2 i h
    rw [f_getElem?, f_getElem?, h]

theorem f_lognormal_density_witness :
    ∃ y, (lognormalEQMOM.f realMath [1, 2] 1 1)[1]? = some y ∧ 0 < y :=
  (f_lognormal_density [1, 2] 1 1).2.2.1 (by norm_num) (by norm_num) 1 2 (by simp)
    (by norm_num)

/-! ## Inversion -/

theorem secondaryNodes_isSome (C : Collaborators ℝ) (self : extendedMomentInversion ℝ)
    (hsec : 0 < self.nSecondaryNodes_) (pAbscissae : List ℝ) :
    ∃ nodes, extendedMomentInversion.secondaryNodes realMath C self pAbscissae = some nodes := by
  induction pAbscissae with
  | nil => exact ⟨[], rfl⟩
  | cons p ps ih =>
    obtain ⟨nodes, hnodes⟩ := ih
    have hne : List.replicate self.nSecondaryNodes_ (0 : ℝ) ≠ [] := by
      intro h
      have := congrArg List.length h
      simp at this
      omega
    obtain ⟨a1, b1, hrr, _⟩ := recurrenceRelation_spec self.sigma_ p _ _ hne hne
    simp only [extendedMomentInversion.secondaryNodes, extendedMomentInversion.secondaryNode,
      hrr, hnodes, bind, pure, Option.some_bind]
    exact ⟨_, rfl⟩

/-- With at least one secondary node `secondaryQuadrature` succeeds and changes
the secondary weights and abscissae only. -/
theorem secondaryQuadrature_spec (C : Collaborators ℝ) (self : extendedMomentInversion ℝ)
    (hsec : 0 < self.nSecondaryNodes_) (pWeights pAbscissae : List ℝ) :
    ∃ r, extendedMomentInversion.secondaryQuadrature realMath C self pWeights pAbscissae = some r
      ∧ r.primaryWeights_ = self.primaryWeights_
      ∧ r.primaryAbscissae_ = self.primaryAbscissae_
      ∧ r.sigma_ = self.sigma_
      ∧ r.nullSigma_ = self.nullSigma_
      ∧ r.foundUnrealizableSigma_ = self.foundUnrealizableSigma_ := by
  obtain ⟨nodes, hnodes⟩ := secondaryNodes_isSome C self hsec pAbscissae
  refine ⟨{ self with
      secondaryWeights_ := nodes.map Prod.fst
      secondaryAbscissae_ := nodes.map Prod.snd }, ?_, rfl, rfl, rfl, rfl, rfl⟩
  simp only [extendedMomentInversion.secondaryQuadrature, hnodes, bind, pure,
    Option.some_bind]

/-- C11: the Singular branch of `invert`.  For every moment sequence (with
`moment[0] > 0`) whose realizable-moment count is below `2*nPrimaryNodes`,
`invert` is `invertSingular` on the reset inverter, and (with at least one
secondary node) it ends with a quadrature that has `nullSigma` set to true and
sigma equal to 0. -/
theorem invert_singular_branch (C : Collaborators ℝ) (self : extendedMomentInversion ℝ)
    (moments : List ℝ) (m0 : ℝ)
    (hsec : 0 < self.nSecondaryNodes_)
    (h0 : moments[0]? = some m0) (hpos : 0 < m0)
    (hsing : C.nRealizableMoments moments < 2 * (self.nPrimaryNodes_ : ℤ)) :
    mStarRealizability.invert realMath C self moments
        = extendedMomentInversion.checked (extendedMomentInversion.invertSingular realMath C
            (extendedMomentInversion.reset self) moments)
      ∧ ∃ r, mStarRealizability.invert realMath C self moments = .ok r
          ∧ r.nullSigma_ = true ∧ r.sigma = 0 := by
  have hnot : ¬ m0 ≤ 0 := not_le.mpr hpos
  have hsing2 : C.nRealizableMoments moments
      < 2 * ((extendedMomentInversion.reset self).nPrimaryNodes_ : ℤ) := hsing
  have hsec2 : 0 < (extendedMomentInversion.reset self).nSecondaryNodes_ := hsec
  have hbranch : mStarRealizability.invert realMath C self moments
      = extendedMomentInversion.checked (extendedMomentInversion.invertSingular realMath C
          (extendedMomentInversion.reset self) moments) := by
    simp only [mStarRealizability.invert, h0, if_neg hnot, if_pos hsing2]
  refine ⟨hbranch, ?_⟩
  obtain ⟨r, hr, _, _, hsig, hnull, _⟩ := secondaryQuadrature_spec C
    { extendedMomentInversion.reset self with
      sigma_ := 0, nullSigma_ := true
      primaryWeights_ := (C.momentInverter moments).1
      primaryAbscissae_ := (C.momentInverter moments).2 }
    hsec2 (C.momentInverter moments).1 (C.momentInverter moments).2
  refine ⟨r, ?_, hnull, hsig⟩
  rw [hbranch]
  simp only [extendedMomentInversion.invertSingular]
  rw [hr]
  rfl

theorem invert_singular_branch_witness :
    mStarRealizability.invert realMath (diracCollaborators ℝ) (smallInverter ℝ) [1]
        = extendedMomentInversion.checked (extendedMomentInversion.invertSingular realMath
            (diracCollaborators ℝ) (extendedMomentInversion.reset (smallInverter ℝ)) [1])
      ∧ ∃ r, mStarRealizability.invert realMath (diracCollaborators ℝ) (smallInverter ℝ) [1]
            = .ok r
          ∧ r.nullSigma_ = true ∧ r.sigma = 0 :=
  invert_singular_branch (diracCollaborators ℝ) (smallInverter ℝ) [1] 1
    (by decide) rfl (by norm_num) (by decide)

/-! ## The recurrence coefficients as orthogonal-polynomial coefficients -/

theorem kernelMoment_eq_pow (sigma : ℝ) (k : ℕ) :
    lognormalEQMOM.kernelMoment realMath sigma k = Real.exp (sqr sigma / 2) ^ (k ^ 2) := by
  simp only [lognormalEQMOM.kernelMoment, realMath, sqr]
  rw [← Real.exp_nat_mul]
  congr 1
  push_cast
  ring

theorem one_le_eta (sigma : ℝ) : 1 ≤ Real.exp (sqr sigma / 2) := by
  rw [← Real.exp_zero]
  apply Real.exp_le_exp.mpr
  simp only [sqr]
  nlinarith [mul_self_nonneg sigma]

theorem one_lt_eta (sigma : ℝ) (hs : sigma ≠ 0) : 1 < Real.exp (sqr sigma / 2) := by
  apply Real.one_lt_exp_iff.mpr
  have : 0 < sigma * sigma := mul_self_pos.mpr hs
  simp only [sqr]
  linarith

/-- C12: the recurrence coefficients are those of the orthogonal polynomials of
the unit lognormal kernel.  For every sigma != 0, with the kernel moments
`mu_k = exp(k^2 * sigma^2 / 2)`, `recurrenceRelation` (on lists that hold the
positions 0 and 1) leaves `a[0] = mu_1/mu_0`, `b[1] = mu_2/mu_0 - (mu_1/mu_0)^2`
and `a[1] = (mu_3 - 2*a[0]*mu_2 + a[0]^2*mu_1) / (mu_2 - 2*a[0]*mu_1 + a[0]^2*mu_0)`,
whatever `primaryAbscissa` is. -/
theorem recurrenceRelation_kernel_moments (sigma primaryAbscissa : ℝ) (a b : List ℝ)
    (hs : sigma ≠ 0) (ha : 2 ≤ a.length) (hb : 2 ≤ b.length) :
    ∃ a1 b1 a0,
      lognormalEQMOM.recurrenceRelation realMath a b primaryAbscissa sigma = some (a1, b1)
      ∧ a1[0]? = some a0
      ∧ a0 = lognormalEQMOM.kernelMoment realMath sigma 1
              / lognormalEQMOM.kernelMoment realMath sigma 0
      ∧ b1[1]? = some (lognormalEQMOM.kernelMoment realMath sigma 2
              / lognormalEQMOM.kernelMoment realMath sigma 0
            - (lognormalEQMOM.kernelMoment realMath sigma 1
              / lognormalEQMOM.kernelMoment realMath sigma 0) ^ 2)
      ∧ a1[1]? = some
          ((lognormalEQMOM.kernelMoment realMath sigma 3
              - 2 * a0 * lognormalEQMOM.kernelMoment realMath sigma 2
              + a0 ^ 2 * lognormalEQMOM.kernelMoment realMath sigma 1)
            / (lognormalEQMOM.kernelMoment realMath sigma 2
              - 2 * a0 * lognormalEQMOM.kernelMoment realMath sigma 1
              + a0 ^ 2 * lognormalEQMOM.kernelMoment realMath sigma 0))
      ∧ ∀ p2 : ℝ, lognormalEQMOM.recurrenceRelation realMath a b p2 sigma = some (a1, b1) := by
  have hane : a ≠ [] := by
    intro h
    rw [h] at ha
    simp at ha
  have hbne : b ≠ [] := by
    intro h
    rw [h] at hb
    simp at hb
  obtain ⟨a1, b1, hrr, _, _, hA, hB⟩ := recurrenceRelation_spec sigma primaryAbscissa a b hane hbne
  have hlt := one_lt_eta sigma hs
  have hpos : 0 < Real.exp (sqr sigma / 2) := Real.exp_pos _
  refine ⟨a1, b1, Real.exp (sqr sigma / 2), hrr, ?_, ?_, ?_, ?_, ?_⟩
  · rw [hA 0 (by omega), if_pos rfl]
  · simp only [kernelMoment_eq_pow]
    norm_num
  · rw [hB 1 (by omega), if_neg (by decide)]
    simp only [kernelMoment_eq_pow]
    congr 1
    have h2 : (6 * ((1 : ℕ) : ℝ) - 4) = ((2 : ℕ) : ℝ) := by norm_num
    have h1 : (((1 : ℕ) : ℝ)) = 1 := by norm_num
    rw [h2, Real.rpow_natCast, h1, Real.rpow_one]
    simp only [sqr]
    norm_num
    ring
  · rw [hA 1 (by omega), if_neg (by decide)]
    simp only [kernelMoment_eq_pow]
    congr 1
    have h2 : (2 * ((1 : ℕ) : ℝ) - 1) = 1 := by norm_num
    have h1 : (((1 : ℕ) : ℝ)) = 1 := by norm_num
    rw [h2, h1, Real.rpow_one, Real.rpow_one]
    generalize Real.exp (sqr sigma / 2) = e at hlt hpos
    simp only [sqr]
    have hden : e ^ 2 ^ 2 - 2 * e * e ^ 1 ^ 2 + e ^ 2 * e ^ 0 ^ 2 ≠ 0 := by
      have : e ^ 2 ^ 2 - 2 * e * e ^ 1 ^ 2 + e ^ 2 * e ^ 0 ^ 2 = e ^ 2 * (e ^ 2 - 1) := by
        norm_num
        ring
      rw [this]
      have h3 : 0 < e ^ 2 - 1 := by nlinarith
      exact mul_ne_zero (pow_ne_zero 2 (ne_of_gt hpos)) (ne_of_gt h3)
    rw [eq_div_iff hden]
    norm_num
    ring
  · intro p2
    rw [← hrr]
    rfl

theorem recurrenceRelation_kernel_moments_witness :
    ∃ a1 b1 a0,
      lognormalEQMOM.recurrenceRelation realMath [0, 0] [0, 0] 2 1 = some (a1, b1)
      ∧ a1[0]? = some a0
      ∧ a0 = lognormalEQMOM.kernelMoment realMath 1 1
              / lognormalEQMOM.kernelMoment realMath 1 0
      ∧ b1[1]? = some (lognormalEQMOM.kernelMoment realMath 1 2
              / lognormalEQMOM.kernelMoment realMath 1 0
            - (lognormalEQMOM.kernelMoment realMath 1 1
              / lognormalEQMOM.kernelMoment realMath 1 0) ^ 2)
      ∧ a1[1]? = some
          ((lognormalEQMOM.kernelMoment realMath 1 3
              - 2 * a0 * lognormalEQMOM.kernelMoment realMath 1 2
              + a0 ^ 2 * lognormalEQMOM.kernelMoment realMath 1 1)
            / (lognormalEQMOM.kernelMoment realMath 1 2
              - 2 * a0 * lognormalEQMOM.kernelMoment realMath 1 1
              + a0 ^ 2 * lognormalEQMOM.kernelMoment realMath 1 0))
      ∧ ∀ p2 : ℝ, lognormalEQMOM.recurrenceRelation realMath [0, 0] [0, 0] p2 1
          = some (a1, b1) :=
  recurrenceRelation_kernel_moments 1 2 [0, 0] [0, 0] (by norm_num) (by simp) (by simp)

theorem one_le_sqr (x : ℝ) (h : 1 ≤ x) : 1 ≤ sqr x := by
  simp only [sqr]
  nlinarith

theorem one_lt_sqr (x : ℝ) (h : 1 < x) : 1 < sqr x := by
  simp only [sqr]
  nlinarith

/-- C13: the tridiagonal matrix built from `recurrenceRelation` is a Jacobi
matrix.  For every sigma and every index `i` (of non-empty lists),
`a[i] > 0` and `b[i] >= 0`, and `b[i] > 0` exactly when sigma != 0 and
`i >= 1`. -/
theorem recurrenceRelation_jacobi (sigma primaryAbscissa : ℝ) (a b : List ℝ)
    (ha : a ≠ []) (hb : b ≠ []) :
    ∃ a1 b1, lognormalEQMOM.recurrenceRelation realMath a b primaryAbscissa sigma = some (a1, b1)
      ∧ (∀ i, i < a.length → ∃ v, a1[i]? = some v ∧ 0 < v)
      ∧ (∀ i, i < b.length → ∃ v, b1[i]? = some v ∧ 0 ≤ v ∧ (0 < v ↔ sigma ≠ 0 ∧ 1 ≤ i)) := by
  obtain ⟨a1, b1, hrr, _, _, hA, hB⟩ := recurrenceRelation_spec sigma primaryAbscissa a b ha hb
  have hpos : 0 < Real.exp (sqr sigma / 2) := Real.exp_pos _
  have hge : 1 ≤ Real.exp (sqr sigma / 2) := one_le_eta sigma
  have hsq : 1 ≤ sqr (Real.exp (sqr sigma / 2)) := one_le_sqr _ hge
  refine ⟨a1, b1, hrr, ?_, ?_⟩
  · intro i hi
    refine ⟨_, hA i hi, ?_⟩
    by_cases h0 : i = 0
    · rw [if_pos h0]
      exact hpos
    · rw [if_neg h0]
      have hp : 1 ≤ sqr (Real.exp (sqr sigma / 2)) ^ (i : ℝ) :=
        Real.one_le_rpow hsq (Nat.cast_nonneg i)
      have hq : 0 < Real.exp (sqr sigma / 2) ^ (2 * (i : ℝ) - 1) :=
        Real.rpow_pos_of_pos hpos _
      have hfac : 0 < (sqr (Real.exp (sqr sigma / 2)) + 1)
          * sqr (Real.exp (sqr sigma / 2)) ^ (i : ℝ) - 1 := by nlinarith
      exact mul_pos hfac hq
  · intro i hi
    refine ⟨_, hB i hi, ?_⟩
    by_cases h0 : i = 0
    · rw [if_pos h0]
      refine ⟨le_refl 0, ?_⟩
      constructor
      · intro h
        exact absurd h (lt_irrefl 0)
      · intro h
        omega
    · rw [if_neg h0]
      have hipos : (0 : ℝ) < (i : ℝ) := Nat.cast_pos.mpr (Nat.pos_of_ne_zero h0)
      have hq : 0 < Real.exp (sqr sigma / 2) ^ (6 * (i : ℝ) - 4) :=
        Real.rpow_pos_of_pos hpos _
      have hp : 1 ≤ sqr (Real.exp (sqr sigma / 2)) ^ (i : ℝ) :=
        Real.one_le_rpow hsq (le_of_lt hipos)
      refine ⟨mul_nonneg (le_of_lt hq) (by linarith), ?_⟩
      constructor
      · intro h
        refine ⟨?_, by omega⟩
        intro hs
        rw [hs] at h
        have h1 : Real.exp (sqr (0 : ℝ) / 2) = 1 := by simp [sqr]
        rw [h1] at h
        simp [sqr] at h
      · intro h
        have hlt := one_lt_eta sigma h.1
        have hsq2 : 1 < sqr (Real.exp (sqr sigma / 2)) := one_lt_sqr _ hlt
        have hp2 : 1 < sqr (Real.exp (sqr sigma / 2)) ^ (i : ℝ) :=
          Real.one_lt_rpow hsq2 hipos
        exact mul_pos hq (by linarith)

theorem recurrenceRelation_jacobi_witness :
    ∃ a1 b1, lognormalEQMOM.recurrenceRelation realMath [0, 0, 0] [0, 0, 0] 2 1 = some (a1, b1)
      ∧ (∀ i, i < [(0 : ℝ), 0, 0].length → ∃ v, a1[i]? = some v ∧ 0 < v)
      ∧ (∀ i, i < [(0 : ℝ), 0, 0].length →
          ∃ v, b1[i]? = some v ∧ 0 ≤ v ∧ (0 < v ↔ (1 : ℝ) ≠ 0 ∧ 1 ≤ i)) :=
  recurrenceRelation_jacobi 1 2 [0, 0, 0] [0, 0, 0] (by simp) (by simp)

/-! ## sigmaMax as the realizability boundary -/

/-- The square of `sqrt(2*log(sqrt R))` is `log R` when `R >= 1`. -/
theorem sigmaZeta_sq (R : ℝ) (hR : 1 ≤ R) :
    Real.sqrt (2 * Real.log (Real.sqrt R)) ^ 2 = Real.log R := by
  have hlog : 0 ≤ Real.log R := Real.log_nonneg hR
  rw [Real.log_sqrt (by linarith)]
  rw [Real.sq_sqrt (by linarith)]
  ring

/-- The sign of `A*exp(-x) - B` is the sign of `log(A/B) - x`. -/
theorem boundary_sign (A B x : ℝ) (hA : 0 < A) (hB : 0 < B) :
    (x = Real.log (A / B) → A * Real.exp (-x) - B = 0)
      ∧ (x ≤ Real.log (A / B) → 0 ≤ A * Real.exp (-x) - B)
      ∧ (Real.log (A / B) < x → A * Real.exp (-x) - B < 0) := by
  have hAB : 0 < A / B := div_pos hA hB
  have hex : 0 < Real.exp (-x) := Real.exp_pos _
  have hmul : Real.exp x * Real.exp (-x) = 1 := by
    rw [← Real.exp_add]
    simp
  have key : A * Real.exp (-x) - B = Real.exp (-x) * B * (A / B - Real.exp x) := by
    have hBne : B ≠ 0 := ne_of_gt hB
    field_simp
    have : A * Real.exp (-x) - B = A * Real.exp (-x) - B * (Real.exp x * Real.exp (-x)) := by
      rw [hmul, mul_one]
    rw [this]
    ring
  have hfac : 0 < Real.exp (-x) * B := mul_pos hex hB
  refine ⟨?_, ?_, ?_⟩
  · intro h
    rw [key, h, Real.exp_log hAB]
    ring
  · intro h
    have : Real.exp x ≤ A / B := (Real.le_log_iff_exp_le hAB).mp h
    rw [key]
    exact mul_nonneg (le_of_lt hfac) (by linarith)
  · intro h
    have : A / B < Real.exp x := (Real.log_lt_iff_lt_exp hAB).mp h
    rw [key]
    exact mul_neg_of_pos_of_neg hfac (by linarith)

theorem exp_neg_half_sq (sigma : ℝ) :
    Real.exp (-sqr sigma / 2) ^ 2 = Real.exp (-(sigma ^ 2)) := by
  rw [← Real.exp_nat_mul]
  congr 1
  simp only [sqr]
  push_cast
  ring

/-- The first four entries of `momentsToMomentsStar`, over the reals. -/
theorem momentsToMomentsStar_low_orders (sigma m0 m1 m2 : ℝ) (rest out : List ℝ)
    (hout : out.length = (m0 :: m1 :: m2 :: rest).length) :
    ∃ mStar, lognormalEQMOM.momentsToMomentsStar realMath sigma (m0 :: m1 :: m2 :: rest) out
        = some mStar
      ∧ mStar[0]? = some m0
      ∧ mStar[1]? = some (m1 * Real.exp (-sqr sigma / 2))
      ∧ mStar[2]? = some (m2 * Real.exp (-sqr sigma / 2) ^ 4)
      ∧ ∀ m3 tail, rest = m3 :: tail → mStar[3]? = some (m3 * Real.exp (-sqr sigma / 2) ^ 9) := by
  obtain ⟨mStar, hStar, _, hget⟩ := momentsToMomentsStar_spec sigma (m0 :: m1 :: m2 :: rest) out
    (le_of_eq hout.symm)
  refine ⟨mStar, hStar, ?_, ?_, ?_, ?_⟩
  · rw [hget 0, rpow_labelMul_self _ 0 (by norm_num)]
    simp
  · rw [hget 1, rpow_labelMul_self _ 1 (by norm_num)]
    simp
  · rw [hget 2, rpow_labelMul_self _ 2 (by norm_num)]
    simp
  · intro m3 tail hrest
    subst hrest
    rw [hget 3, rpow_labelMul_self _ 3 (by norm_num)]
    simp

/-- C14: `sigmaMax` is the realizability boundary of the transformed moments.
For moments with `m0, m1, m2 > 0` and `m0*m2 >= m1^2`, the value
`s1 = sqrt(2*log(sqrt(m0*m2/m1^2)))` (what `sigmaMax` returns with at most 3
realizable moments) is `>= 0`; the starred moments satisfy
`mStar0*mStar2 - mStar1^2 = 0` at sigma = `s1`, `>= 0` for `0 <= sigma <= s1`
and `< 0` for sigma `> s1`.  Likewise, with `m1, m2, m3 > 0` and
`m1*m3 >= m2^2`, at sigma = `s2 = sqrt(2*log(sqrt(m1*m3/m2^2)))` they satisfy
`mStar1*mStar3 - mStar2^2 = 0`. -/
theorem sigmaMax_realizability_boundary (m0 m1 m2 : ℝ) (rest out : List ℝ)
    (h1 : 0 < m1) (h2 : 0 < m2)
    (hout : out.length = (m0 :: m1 :: m2 :: rest).length) :
    (0 < m0 → m1 ^ 2 ≤ m0 * m2 →
        0 ≤ Real.sqrt (2 * Real.log (Real.sqrt (m0 * m2 / m1 ^ 2)))
        ∧ (∀ nRealizableMoments : List ℝ → ℤ,
            nRealizableMoments (m0 :: m1 :: m2 :: rest) ≤ 3 →
            lognormalEQMOM.sigmaMax realMath nRealizableMoments (m0 :: m1 :: m2 :: rest)
              = some (Real.sqrt (2 * Real.log (Real.sqrt (m0 * m2 / m1 ^ 2)))))
        ∧ ∀ sigma : ℝ, ∃ mStar q0 q1 q2,
            lognormalEQMOM.momentsToMomentsStar realMath sigma (m0 :: m1 :: m2 :: rest) out
              = some mStar
            ∧ mStar[0]? = some q0 ∧ mStar[1]? = some q1 ∧ mStar[2]? = some q2
            ∧ (sigma = Real.sqrt (2 * Real.log (Real.sqrt (m0 * m2 / m1 ^ 2))) →
                q0 * q2 - q1 ^ 2 = 0)
            ∧ (0 ≤ sigma → sigma ≤ Real.sqrt (2 * Real.log (Real.sqrt (m0 * m2 / m1 ^ 2))) →
                0 ≤ q0 * q2 - q1 ^ 2)
            ∧ (Real.sqrt (2 * Real.log (Real.sqrt (m0 * m2 / m1 ^ 2))) < sigma →
                q0 * q2 - q1 ^ 2 < 0))
      ∧ (∀ m3 tail, rest = m3 :: tail → 0 < m3 → m2 ^ 2 ≤ m1 * m3 →
          ∃ mStar q1 q2 q3,
            lognormalEQMOM.momentsToMomentsStar realMath
                (Real.sqrt (2 * Real.log (Real.sqrt (m1 * m3 / m2 ^ 2))))
                (m0 :: m1 :: m2 :: rest) out = some mStar
            ∧ mStar[1]? = some q1 ∧ mStar[2]? = some q2 ∧ mStar[3]? = some q3
            ∧ q1 * q3 - q2 ^ 2 = 0) := by
  constructor
  · intro h0 hR
    have hA : 0 < m0 * m2 := mul_pos h0 h2
    have hB : 0 < m1 ^ 2 := by positivity
    have hR1 : 1 ≤ m0 * m2 / m1 ^ 2 := (one_le_div hB).mpr hR
    have hs1 := sigmaZeta_sq (m0 * m2 / m1 ^ 2) hR1
    have hs1nn : 0 ≤ Real.sqrt (2 * Real.log (Real.sqrt (m0 * m2 / m1 ^ 2))) :=
      Real.sqrt_nonneg _
    refine ⟨hs1nn, ?_, ?_⟩
    · intro nR hnR
      have h3 : ¬ nR (m0 :: m1 :: m2 :: rest) > 3 := by omega
      simp [lognormalEQMOM.sigmaMax, realMath, sqr, pow_two, h3]
    · intro sigma
      obtain ⟨mStar, hStar, hq0, hq1, hq2, _⟩ :=
        momentsToMomentsStar_low_orders sigma m0 m1 m2 rest out hout
      refine ⟨mStar, _, _, _, hStar, hq0, hq1, hq2, ?_⟩
      have hE := exp_neg_half_sq sigma
      have key : m0 * (m2 * Real.exp (-sqr sigma / 2) ^ 4) - (m1 * Real.exp (-sqr sigma / 2)) ^ 2
          = Real.exp (-(sigma ^ 2)) * (m0 * m2 * Real.exp (-(sigma ^ 2)) - m1 ^ 2) := by
        rw [← hE]
        ring
      have hpos : 0 < Real.exp (-(sigma ^ 2)) := Real.exp_pos _
      obtain ⟨b1, b2, b3⟩ := boundary_sign (m0 * m2) (m1 ^ 2) (sigma ^ 2) hA hB
      rw [key]
      refine ⟨?_, ?_, ?_⟩
      · intro hs
        have : sigma ^ 2 = Real.log (m0 * m2 / m1 ^ 2) := by rw [hs, hs1]
        rw [b1 this, mul_zero]
      · intro hnn hle
        have : sigma ^ 2 ≤ Real.log (m0 * m2 / m1 ^ 2) := by
          rw [← hs1]
          exact pow_le_pow_left₀ hnn hle 2
        exact mul_nonneg (le_of_lt hpos) (b2 this)
      · intro hlt
        have : Real.log (m0 * m2 / m1 ^ 2) < sigma ^ 2 := by
          rw [← hs1]
          exact pow_lt_pow_left₀ hlt hs1nn (by decide)
        exact mul_neg_of_pos_of_neg hpos (b3 this)
  · intro m3 tail hrest h3 hR
    have hA : 0 < m1 * m3 := mul_pos h1 h3
    have hB : 0 < m2 ^ 2 := by positivity
    have hR1 : 1 ≤ m1 * m3 / m2 ^ 2 := (one_le_div hB).mpr hR
    have hs2 := sigmaZeta_sq (m1 * m3 / m2 ^ 2) hR1
    obtain ⟨mStar, hStar, _, hq1, hq2, hq3⟩ := momentsToMomentsStar_low_orders
      (Real.sqrt (2 * Real.log (Real.sqrt (m1 * m3 / m2 ^ 2)))) m0 m1 m2 rest out hout
    refine ⟨mStar, _, _, _, hStar, hq1, hq2, hq3 m3 tail hrest, ?_⟩
    have hE := exp_neg_half_sq (Real.sqrt (2 * Real.log (Real.sqrt (m1 * m3 / m2 ^ 2))))
    rw [hs2] at hE
    obtain ⟨b1, _, _⟩ := boundary_sign (m1 * m3) (m2 ^ 2) (Real.log (m1 * m3 / m2 ^ 2)) hA hB
    have hzero := b1 rfl
    generalize Real.exp (-sqr (Real.sqrt (2 * Real.log (Real.sqrt (m1 * m3 / m2 ^ 2)))) / 2) = E
      at hE ⊢
    have key : m1 * E * (m3 * E ^ 9) - (m2 * E ^ 4) ^ 2
        = (E ^ 2) ^ 4 * (m1 * m3 * E ^ 2 - m2 ^ 2) := by ring
    rw [key, hE, hzero, mul_zero]

theorem sigmaMax_realizability_boundary_witness :
    ∃ mStar q1 q2 q3,
      lognormalEQMOM.momentsToMomentsStar realMath
          (Real.sqrt (2 * Real.log (Real.sqrt (2 * 14 / (5 : ℝ) ^ 2))))
          [1, 2, 5, 14] [0, 0, 0, 0] = some mStar
      ∧ mStar[1]? = some q1 ∧ mStar[2]? = some q2 ∧ mStar[3]? = some q3
      ∧ q1 * q3 - q2 ^ 2 = 0 :=
  (sigmaMax_realizability_boundary 1 2 5 [14] [0, 0, 0, 0] (by norm_num) (by norm_num) rfl).2
    14 [] rfl (by norm_num) (by norm_num)

/-! ## m2N and the inverse transform -/

/-- C15: `m2N` agrees with the inverse transform.  For every sigma and every
non-empty `momentsStar` with `nRealizableMoments >= length - 1`, the value of
`m2N(sigma, momentsStar)` is the last entry of the sequence that
`momentsStarToMoments(sigma, ., momentsStar)` produces in an output of the same
length. -/
theorem m2N_eq_last_momentsStarToMoments (GREAT : ℝ) (nRealizableMoments : List ℝ → ℤ)
    (sigma : ℝ) (momentsStar out : List ℝ) (hne : momentsStar ≠ [])
    (hreal : nRealizableMoments momentsStar ≥ (momentsStar.length : ℤ) - 1)
    (hout : out.length = momentsStar.length) :
    ∃ v moments,
      lognormalEQMOM.m2N realMath GREAT nRealizableMoments sigma momentsStar
        = some (v, momentsStar)
      ∧ lognormalEQMOM.momentsStarToMoments realMath sigma out momentsStar = some moments
      ∧ moments.length = momentsStar.length
      ∧ moments.getLast? = some v := by
  have hpos : 0 < momentsStar.length := List.length_pos.mpr hne
  obtain ⟨moments, hm, hlen, hget⟩ := momentsStarToMoments_spec sigma out momentsStar
    (le_of_eq hout)
  refine ⟨_, moments, m2N_formula_branch GREAT nRealizableMoments sigma momentsStar hne hreal,
    hm, by omega, ?_⟩
  have hidx : ((momentsStar.length - 1 : ℕ) : ℤ) = (momentsStar.length : ℤ) - 1 := by
    push_cast [Nat.cast_sub hpos]
    ring
  rw [List.getLast?_eq_getElem?, hget (moments.length - 1), hlen, hout,
    if_pos (by omega), List.getLast_eq_getElem, List.getElem?_eq_getElem (by omega),
    Option.map_some']
  simp only [hidx]

theorem m2N_eq_last_momentsStarToMoments_witness :
    ∃ v moments,
      lognormalEQMOM.m2N realMath (10 ^ 15) (fun _ => 3) 1 [1, 2, 5] = some (v, [1, 2, 5])
      ∧ lognormalEQMOM.momentsStarToMoments realMath 1 [0, 0, 0] [1, 2, 5] = some moments
      ∧ moments.length = [(1 : ℝ), 2, 5].length
      ∧ moments.getLast? = some v :=
  m2N_eq_last_momentsStarToMoments (10 ^ 15) (fun _ => 3) 1 [1, 2, 5] [0, 0, 0] (by simp)
    (by decide) rfl

/-! ## Mass and sign under the transform -/

/-- C16: the kernel transform conserves total mass.  For every sigma and every
non-empty moment sequence, `momentsToMomentsStar` and `momentsStarToMoments`
(into a sequence of the same length) both leave the zeroth moment unchanged,
`output[0] = input[0]`, and both preserve the sign of every entry. -/
theorem transforms_keep_mass_and_sign (sigma : ℝ) (m out : List ℝ) (hne : m ≠ [])
    (hout : out.length = m.length) :
    (∃ r, lognormalEQMOM.momentsToMomentsStar realMath sigma m out = some r
        ∧ r.length = m.length
        ∧ r[0]? = some (m.head hne)
        ∧ ∀ (k : ℕ) (v w : ℝ), m[k]? = some v → r[k]? = some w →
            SignType.sign w = SignType.sign v)
      ∧ (∃ r, lognormalEQMOM.momentsStarToMoments realMath sigma out m = some r
        ∧ r.length = m.length
        ∧ r[0]? = some (m.head hne)
        ∧ ∀ (k : ℕ) (v w : ℝ), m[k]? = some v → r[k]? = some w →
            SignType.sign w = SignType.sign v) := by
  have hpos : 0 < m.length := List.length_pos.mpr hne
  have hhead : m[0]? = some (m.head hne) := by
    cases m with
    | nil => exact absurd rfl hne
    | cons x xs => simp
  have hsign : ∀ (z v y : ℝ), 0 < z → SignType.sign (v * z ^ y) = SignType.sign v := by
    intro z v y hz
    rw [sign_mul, sign_pos (Real.rpow_pos_of_pos hz y), mul_one]
  constructor
  · obtain ⟨r, hr, hlen, hget⟩ := momentsToMomentsStar_spec sigma m out (le_of_eq hout.symm)
    refine ⟨r, hr, by omega, ?_, ?_⟩
    · rw [hget 0, if_pos hpos, hhead, rpow_labelMul_self _ 0 (by norm_num)]
      simp
    · intro k v w hv hw
      have hk : k < m.length := by
        by_contra hcon
        rw [List.getElem?_eq_none (by omega)] at hv
        exact Option.noConfusion hv
      rw [hget k, if_pos hk, hv, Option.map_some'] at hw
      rw [← Option.some.inj hw]
      exact hsign _ v _ (Real.exp_pos _)
  · obtain ⟨r, hr, hlen, hget⟩ := momentsStarToMoments_spec sigma out m (le_of_eq hout)
    refine ⟨r, hr, by omega, ?_, ?_⟩
    · rw [hget 0, if_pos (by omega), hhead, rpow_labelMul_self _ 0 (by norm_num)]
      simp
    · intro k v w hv hw
      have hk : k < out.length := by
        by_contra hcon
        rw [List.getElem?_eq_none (by omega)] at hv
        exact Option.noConfusion hv
      rw [hget k, if_pos hk, hv, Option.map_some'] at hw
      rw [← Option.some.inj hw]
      exact hsign _ v _ (Real.exp_pos _)

theorem transforms_keep_mass_and_sign_witness :
    (∃ r, lognormalEQMOM.momentsToMomentsStar realMath 1 [1, -2, 5] [0, 0, 0] = some r
        ∧ r.length = [(1 : ℝ), -2, 5].length
        ∧ r[0]? = some ([(1 : ℝ), -2, 5].head (by simp))
        ∧ ∀ (k : ℕ) (v w : ℝ), [(1 : ℝ), -2, 5][k]? = some v → r[k]? = some w →
            SignType.sign w = SignType.sign v)
      ∧ (∃ r, lognormalEQMOM.momentsStarToMoments realMath 1 [0, 0, 0] [1, -2, 5] = some r
        ∧ r.length = [(1 : ℝ), -2, 5].length
        ∧ r[0]? = some ([(1 : ℝ), -2, 5].head (by simp))
        ∧ ∀ (k : ℕ) (v w : ℝ), [(1 : ℝ), -2, 5][k]? = some v → r[k]? = some w →
            SignType.sign w = SignType.sign v) :=
  transforms_keep_mass_and_sign 1 [1, -2, 5] [0, 0, 0] (by simp) rfl

/-! ## Reads of sigmaMax -/

/-- C17, as stated, fails for two moments.  With `nMoments = 2` and
`nPrimaryNodes = 1` (so `2*nPrimaryNodes <= nMoments`) and both moments
realizable, `sigmaMax` reads `moments[2]`, outside the sequence. -/
theorem sigmaMax_reads_past_two_moments :
    (2 : ℕ) ≤ ([1, 1] : List ℝ).length
      ∧ 2 * 1 ≤ ([1, 1] : List ℝ).length
      ∧ (fun ms : List ℝ => (ms.length : ℤ)) [1, 1] ≤ (([1, 1] : List ℝ).length : ℤ)
      ∧ ([1, 1] : List ℝ)[2]? = none
      ∧ lognormalEQMOM.sigmaMax realMath (fun ms => (ms.length : ℤ)) [1, 1] = none := by
  refine ⟨by decide, by decide, by decide, rfl, ?_⟩
  simp [lognormalEQMOM.sigmaMax]

/-- C17 (amended): `sigmaMax` reads only indices inside the moment sequence for
every sequence of length `nMoments >= 3` whose `nRealizableMoments` does not
exceed its length: `moments[0..2]` are inside, `moments[3]` is inside when
`nRealizableMoments > 3`, and `sigmaMax` returns a value. -/
theorem sigmaMax_reads_in_bounds (nRealizableMoments : List ℝ → ℤ) (moments : List ℝ)
    (hlen : 3 ≤ moments.length)
    (hreal : nRealizableMoments moments ≤ (moments.length : ℤ)) :
    (∃ m0 m1 m2, moments[0]? = some m0 ∧ moments[1]? = some m1 ∧ moments[2]? = some m2)
      ∧ (nRealizableMoments moments > 3 → ∃ m3, moments[3]? = some m3)
      ∧ ∃ r, lognormalEQMOM.sigmaMax realMath nRealizableMoments moments = some r := by
  have h012 : ∃ m0 m1 m2, moments[0]? = some m0 ∧ moments[1]? = some m1
      ∧ moments[2]? = some m2 :=
    ⟨moments[0], moments[1], moments[2], List.getElem?_eq_getElem _,
      List.getElem?_eq_getElem _, List.getElem?_eq_getElem _⟩
  have h3 : nRealizableMoments moments > 3 → ∃ m3, moments[3]? = some m3 := by
    intro h
    have : 3 < moments.length := by omega
    exact ⟨moments[3], List.getElem?_eq_getElem _⟩
  refine ⟨h012, h3, ?_⟩
  obtain ⟨m0, m1, m2, e0, e1, e2⟩ := h012
  by_cases h : nRealizableMoments moments > 3
  · obtain ⟨m3, e3⟩ := h3 h
    simp only [lognormalEQMOM.sigmaMax, e0, e1, e2, e3, if_pos h, bind, pure,
      Option.some_bind]
    exact ⟨_, rfl⟩
  · simp only [lognormalEQMOM.sigmaMax, e0, e1, e2, if_neg h, bind, pure,
      Option.some_bind]
    exact ⟨_, rfl⟩

theorem sigmaMax_reads_in_bounds_witness :
    (∃ m0 m1 m2, [(1 : ℝ), 2, 5, 14][0]? = some m0 ∧ [(1 : ℝ), 2, 5, 14][1]? = some m1
        ∧ [(1 : ℝ), 2, 5, 14][2]? = some m2)
      ∧ ((fun ms : List ℝ => (ms.length : ℤ)) [1, 2, 5, 14] > 3 →
          ∃ m3, [(1 : ℝ), 2, 5, 14][3]? = some m3)
      ∧ ∃ r, lognormalEQMOM.sigmaMax realMath (fun ms => (ms.length : ℤ)) [1, 2, 5, 14]
          = some r :=
  sigmaMax_reads_in_bounds (fun ms => (ms.length : ℤ)) [1, 2, 5, 14] (by decide) (by decide)

end Foam
